import Mathlib

/-!
Verification development for a set of batch regex-rewriting scripts
(`convert-tunit-to-xunit.py`, `fix-final-assertions.py`,
`fix-remaining-xunit-issues.py`, `fix-xunit-warnings.py`).

File contents are modelled as `List Char`.  Python's `re.sub` is modelled by a
small backtracking regular-expression engine (`mrun`, `resubGo`) whose match
enumeration order mirrors Python's leftmost / greedy-with-backtracking
semantics.  The file system is modelled as an association list from paths to
contents together with a read-only set and a log of write events.
-/

/-- Characters of a string literal. -/
def lch (s : String) : List Char := s.data

/-- Python's substring test `needle in hay` (`needle in ""` holds only for the
empty needle). -/
def containsSub : List Char → List Char → Bool
  | [], n => n.isEmpty
  | c :: t, n => n.isPrefixOf (c :: t) || containsSub t n

/-- Python's `line.startswith(pre)`. -/
def startsW (l pre : List Char) : Bool := pre.isPrefixOf l

/-- Python's `content.split('\n')` (always at least one piece). -/
def splitNl : List Char → List (List Char)
  | [] => [[]]
  | c :: t =>
    if c = '\n' then [] :: splitNl t
    else
      match splitNl t with
      | [] => [[c]]
      | l :: ls => (c :: l) :: ls

/-- Python's `'\n'.join(lines)`. -/
def joinNl : List (List Char) → List Char
  | [] => []
  | [l] => l
  | l :: ls => l ++ '\n' :: joinNl ls

/-- Fueled worker for `strReplace`; the fuel is an upper bound on the number of
steps, each step either copies one character or consumes one (non-empty)
occurrence of the needle. -/
def strRepGo : Nat → List Char → List Char → List Char → List Char
  | 0, s, _, _ => s
  | _ + 1, [], _, _ => []
  | fuel + 1, c :: t, n, r =>
    if n.isPrefixOf (c :: t) then r ++ strRepGo fuel ((c :: t).drop n.length) n r
    else c :: strRepGo fuel t n r

/-- Python's `s.replace(n, r)`: replace all non-overlapping leftmost
occurrences; with an empty needle Python inserts `r` at every boundary. -/
def strReplace (s n r : List Char) : List Char :=
  if n.isEmpty then r ++ s.flatMap (fun c => c :: r)
  else strRepGo (s.length + 1) s n r

/-- Python's `list.insert(i, x)` (clamps at the end of the list). -/
def pyInsert {α : Type} : Nat → α → List α → List α
  | 0, x, ls => x :: ls
  | _ + 1, x, [] => [x]
  | n + 1, x, l :: ls => l :: pyInsert n x ls

/-- Python's `os.path.basename`: the part of the path after the last slash. -/
def basenameL (p : List Char) : List Char :=
  ((p.reverse.takeWhile (fun c => !(c = '/'))).reverse)

/-! ## Regular-expression engine

Only the constructs used by the scripts' patterns are supported: literal
strings, character classes (`[^x]`, `[A-Za-z]`, `\d`, `\w`, `\s`) with `*`
and `+`, alternation, option, and numbered capture groups.  `mrun` returns
the list of possible (rest-of-input, captures) pairs in Python's backtracking
priority order (leftmost alternative first, greedy quantifiers longest
first), so the head of the list is the match Python chooses. -/

/-- Character classes occurring in the scripts' patterns. -/
inductive CC where
  | noneOf (cs : List Char)
  | oneOf (cs : List Char)
  | digit
  | word
  | space
  | alpha
deriving DecidableEq

/-- Membership of a character in a class (`\d`, `\w`, `\s` restricted to
ASCII, which covers every input considered here). -/
def ccMatch : CC → Char → Bool
  | .noneOf cs, c => !cs.contains c
  | .oneOf cs, c => cs.contains c
  | .digit, c => '0' ≤ c && c ≤ '9'
  | .word, c =>
    ('a' ≤ c && c ≤ 'z') || ('A' ≤ c && c ≤ 'Z') || ('0' ≤ c && c ≤ '9') || c = '_'
  | .space, c => c = ' ' || c = '\t' || c = '\n' || c = '\r' || c = '\x0b' || c = '\x0c'
  | .alpha, c => ('a' ≤ c && c ≤ 'z') || ('A' ≤ c && c ≤ 'Z')

/-- Regular expressions (star only over character classes, which is all the
scripts use; this keeps every recursion structural). -/
inductive RE where
  | eps
  | str (t : List Char)
  | cls (c : CC)
  | star (c : CC)
  | seq (a b : RE)
  | alt (a b : RE)
  | group (n : Nat) (a : RE)

/-- Captured groups, most recent first. -/
abbrev Caps := List (Nat × List Char)

/-- Rests of `s` after consuming a (possibly empty) run of class characters,
longest consumed first (greedy priority order). -/
def ccSplits (c : CC) (s : List Char) : List (List Char) :=
  let m := (s.takeWhile (ccMatch c)).length
  (List.range (m + 1)).map (fun k => s.drop (m - k))

/-- All ways a regex can match a prefix of `s`, as (rest, captures) pairs in
Python's backtracking priority order. -/
def mrun : RE → List Char → Caps → List (List Char × Caps)
  | .eps, s, g => [(s, g)]
  | .str t, s, g => if t.isPrefixOf s then [(s.drop t.length, g)] else []
  | .cls c, s, g =>
    match s with
    | [] => []
    | a :: t => if ccMatch c a then [(t, g)] else []
  | .star c, s, g => (ccSplits c s).map (fun r => (r, g))
  | .seq a b, s, g => (mrun a s g).flatMap (fun p => mrun b p.1 p.2)
  | .alt a b, s, g => mrun a s g ++ mrun b s g
  | .group n a, s, g =>
    (mrun a s g).map (fun p => (p.1, (n, s.take (s.length - p.1.length)) :: p.2))

/-- Replacement-template item: literal text or a backreference `\n`. -/
inductive TI where
  | lit (t : List Char)
  | ref (n : Nat)

/-- Look up a captured group (most recent capture wins). -/
def grpGet : Caps → Nat → List Char
  | [], _ => []
  | (m, v) :: t, n => if m = n then v else grpGet t n

/-- Instantiate a replacement template with the captures of a match. -/
def applyTmpl (t : List TI) (g : Caps) : List Char :=
  t.flatMap (fun i => match i with | .lit l => l | .ref n => grpGet g n)

/-- Fueled scan of `re.sub`: at each position try the pattern; on a match emit
the replacement (computed by `f` from the matched text and its captures) and
continue after the match, otherwise copy one character.  The fuel only needs
to exceed the input length. -/
def resubGo : Nat → RE → (List Char → Caps → List Char) → List Char → List Char
  | 0, _, _, s => s
  | _ + 1, _, _, [] => []
  | fuel + 1, p, f, c :: cs =>
    match mrun p (c :: cs) [] with
    | [] => c :: resubGo fuel p f cs
    | (rest, gr) :: _ =>
      let m := (c :: cs).take ((c :: cs).length - rest.length)
      if rest.length < (c :: cs).length then f m gr ++ resubGo fuel p f rest
      else f m gr ++ c :: resubGo fuel p f cs

/-- Python's `re.sub(p, f, s)` with a function replacement. -/
def resubF (p : RE) (f : List Char → Caps → List Char) (s : List Char) : List Char :=
  resubGo (s.length + 1) p f s

/-- Python's `re.sub(p, t, s)` with a template replacement. -/
def resub (p : RE) (t : List TI) (s : List Char) : List Char :=
  resubF p (fun _ g => applyTmpl t g) s

/-! Pattern-building helpers. -/

/-- Literal pattern text. -/
def rlit (s : String) : RE := RE.str s.data

/-- Sequence of patterns. -/
def seqs (l : List RE) : RE := l.foldr RE.seq RE.eps

/-- `r?` (greedy: the present alternative is tried first). -/
def ropt (r : RE) : RE := RE.alt r RE.eps

/-- `[^cs]+`. -/
def plusNot (s : String) : RE :=
  RE.seq (RE.cls (CC.noneOf s.data)) (RE.star (CC.noneOf s.data))

/-- `\w+`. -/
def plusWord : RE := RE.seq (RE.cls CC.word) (RE.star CC.word)

/-- `\d+`. -/
def plusDigit : RE := RE.seq (RE.cls CC.digit) (RE.star CC.digit)

/-- `[A-Za-z]+`. -/
def plusAlpha : RE := RE.seq (RE.cls CC.alpha) (RE.star CC.alpha)

/-- Template literal text. -/
def tl (s : String) : TI := TI.lit s.data

/-! ## `convert-tunit-to-xunit.py` -/

/-- Trigger-marker check of `convert_file` (source line 19): the file is
skipped when none of `[Test]`, `await Assert.That`, `TUnit` occurs. -/
def hasMarkersB (c : List Char) : Bool :=
  containsSub c (lch "[Test]") || containsSub c (lch "await Assert.That") ||
    containsSub c (lch "TUnit")

/-- Insert-position loop of `convert_file` (source lines 33-38): walk the
lines keeping `acc` = one past the last line that starts with `using ` but
not with `using Xunit`; stop at the first line starting with `namespace `. -/
def insertIdx : List (List Char) → Nat → Nat → Nat
  | [], _, acc => acc
  | l :: rest, i, acc =>
    if startsW l (lch "using ") && !startsW l (lch "using Xunit") then
      insertIdx rest (i + 1) (i + 1)
    else if startsW l (lch "namespace ") then acc
    else insertIdx rest (i + 1) acc

/-- Source lines 28-40 of `convert_file`: ensure `using Xunit;` is present
when a test attribute is, inserting it at the computed index. -/
def ensureXunitUsing (c : List Char) : List Char :=
  if containsSub c (lch "[Test]") || containsSub c (lch "[Fact]") then
    if !containsSub c (lch "using Xunit;") then
      let lines := splitNl c
      joinNl (pyInsert (insertIdx lines 0 0) (lch "using Xunit;") lines)
    else c
  else c

/-- Replacement function of source lines 90-101 (`replace_multiline_assertions`):
string-level rewrites of the whole matched text. -/
def multiRepl (m : List Char) : List Char :=
  if containsSub m (lch ".IsEqualTo(") then
    strReplace (strReplace m (lch "await Assert.That(") (lch "Assert.Equal("))
      (lch ").IsEqualTo(") (lch ", ")
  else if containsSub m (lch ".IsNotNull()") then
    strReplace (strReplace m (lch "await Assert.That(") (lch "Assert.NotNull("))
      (lch ").IsNotNull();") (lch ");")
  else if containsSub m (lch ".IsTrue()") then
    strReplace (strReplace m (lch "await Assert.That(") (lch "Assert.True("))
      (lch ").IsTrue();") (lch ");")
  else if containsSub m (lch ".IsFalse()") then
    strReplace (strReplace m (lch "await Assert.That(") (lch "Assert.False("))
      (lch ").IsFalse();") (lch ");")
  else m

/-- Brace scan of source lines 114-125: running count of `{` minus `}` per
line (the count is an integer and may go negative), a flag for having seen a
`{`, and the relative index of the line on which the flag is set and the
count is zero after processing the line; `none` when the loop never breaks. -/
def scanEnd : List (List Char) → Int → Bool → Option Nat
  | [], _, _ => none
  | l :: rest, cnt, found =>
    let cnt1 := if l.contains '{' then cnt + (l.count '{' : Int) else cnt
    let found1 := found || l.contains '{'
    let cnt2 := if l.contains '}' then cnt1 - (l.count '}' : Int) else cnt1
    if found1 && cnt2 == 0 then some 0
    else (scanEnd rest cnt2 found1).map (fun k => k + 1)

/-- Method extent of source lines 112-128: the signature line together with
the following lines up to the brace-scan end (just the signature line when
the scan never breaks), joined with newlines. -/
def methodContent (ls : List (List Char)) : List Char :=
  joinNl (ls.take ((scanEnd ls 0 false).getD 0 + 1))

/-- Async-removal pass of source lines 108-133: a line containing
`public async Task` and `()` whose method extent contains no `await ` has
`public async Task` replaced by `public void`.  The Python loop mutates the
list during iteration, but each iteration only rewrites the current line and
scans from the current line forward, so the pass is this structural map. -/
def step6Go : List (List Char) → List (List Char)
  | [] => []
  | l :: rest =>
    (if containsSub l (lch "public async Task") && containsSub l (lch "()") &&
        !containsSub (methodContent (l :: rest)) (lch "await ") then
      strReplace l (lch "public async Task") (lch "public void")
    else l) :: step6Go rest

/-- Whether a line begins with `using ` (source line 141). -/
def usingLine (l : List Char) : Bool := startsW l (lch "using ")

/-- Deduplication loop of source lines 137-147, with the Python set of seen
using-lines modelled as a list. -/
def dedupGo : List (List Char) → List (List Char) → List (List Char)
  | _, [] => []
  | seen, l :: ls =>
    if usingLine l then
      if seen.contains l then dedupGo seen ls
      else l :: dedupGo (l :: seen) ls
    else l :: dedupGo seen ls

/-- Duplicate-`using` removal pass (source lines 136-147). -/
def dedupUsings (ls : List (List Char)) : List (List Char) := dedupGo [] ls

/-- Removal of the TUnit `using` lines (source lines 24-26 of
`convert_file`), with each `re.sub` in source order. -/
def convertRemovals (c0 : List Char) : List Char :=
  -- line 24: using TUnit\.Core;?\s*\n -> ''
  let c := resub (seqs [rlit "using TUnit.Core", ropt (rlit ";"), RE.star CC.space, rlit "\n"]) [] c0
  -- line 25: using TUnit\.Assertions;?\s*\n -> ''
  let c := resub (seqs [rlit "using TUnit.Assertions", ropt (rlit ";"), RE.star CC.space, rlit "\n"]) [] c
  -- line 26: using TUnit\.Assertions\.Extensions;?\s*\n -> ''
  let c := resub (seqs [rlit "using TUnit.Assertions.Extensions", ropt (rlit ";"), RE.star CC.space, rlit "\n"]) [] c
  c

/-- Substitution rules of `convert_file` after the `using Xunit;` insertion,
up to and including the async-removal pass (source lines 43-133), with each
`re.sub` in source order. -/
def convertRules (c1 : List Char) : List Char :=
  -- line 43: \[Test\] -> [Fact]
  let c := resub (rlit "[Test]") [tl "[Fact]"] c1
  -- line 44: \[TestMethod\] -> [Fact]
  let c := resub (rlit "[TestMethod]") [tl "[Fact]"] c
  -- line 48: public async void (\w+)\(\) -> public void \1()
  let c := resub (seqs [rlit "public async void ", RE.group 1 plusWord, rlit "()"])
    [tl "public void ", TI.ref 1, tl "()"] c
  -- line 51: public async Task (\w+)\(\) -> public async Task \1()
  let c := resub (seqs [rlit "public async Task ", RE.group 1 plusWord, rlit "()"])
    [tl "public async Task ", TI.ref 1, tl "()"] c
  -- line 56: await Assert\.That\(([^)]+)\)\.IsEqualTo\(([^)]+)\); -> Assert.Equal(\2, \1);
  let c := resub (seqs [rlit "await Assert.That(", RE.group 1 (plusNot ")"), rlit ").IsEqualTo(", RE.group 2 (plusNot ")"), rlit ");"])
    [tl "Assert.Equal(", TI.ref 2, tl ", ", TI.ref 1, tl ");"] c
  -- line 57: ...IsNotEqualTo... -> Assert.NotEqual(\2, \1);
  let c := resub (seqs [rlit "await Assert.That(", RE.group 1 (plusNot ")"), rlit ").IsNotEqualTo(", RE.group 2 (plusNot ")"), rlit ");"])
    [tl "Assert.NotEqual(", TI.ref 2, tl ", ", TI.ref 1, tl ");"] c
  -- line 60: ...IsNotNull\(\); -> Assert.NotNull(\1);
  let c := resub (seqs [rlit "await Assert.That(", RE.group 1 (plusNot ")"), rlit ").IsNotNull();"])
    [tl "Assert.NotNull(", TI.ref 1, tl ");"] c
  -- line 61: ...IsNull\(\); -> Assert.Null(\1);
  let c := resub (seqs [rlit "await Assert.That(", RE.group 1 (plusNot ")"), rlit ").IsNull();"])
    [tl "Assert.Null(", TI.ref 1, tl ");"] c
  -- line 64: ...IsTrue\(\); -> Assert.True(\1);
  let c := resub (seqs [rlit "await Assert.That(", RE.group 1 (plusNot ")"), rlit ").IsTrue();"])
    [tl "Assert.True(", TI.ref 1, tl ");"] c
  -- line 65: ...IsFalse\(\); -> Assert.False(\1);
  let c := resub (seqs [rlit "await Assert.That(", RE.group 1 (plusNot ")"), rlit ").IsFalse();"])
    [tl "Assert.False(", TI.ref 1, tl ");"] c
  -- line 68: ...IsGreaterThan\(([^)]+)\); -> Assert.True(\1 > \2);
  let c := resub (seqs [rlit "await Assert.That(", RE.group 1 (plusNot ")"), rlit ").IsGreaterThan(", RE.group 2 (plusNot ")"), rlit ");"])
    [tl "Assert.True(", TI.ref 1, tl " > ", TI.ref 2, tl ");"] c
  -- line 69: ...IsGreaterThanOrEqualTo... -> Assert.True(\1 >= \2);
  let c := resub (seqs [rlit "await Assert.That(", RE.group 1 (plusNot ")"), rlit ").IsGreaterThanOrEqualTo(", RE.group 2 (plusNot ")"), rlit ");"])
    [tl "Assert.True(", TI.ref 1, tl " >= ", TI.ref 2, tl ");"] c
  -- line 70: ...IsLessThan... -> Assert.True(\1 < \2);
  let c := resub (seqs [rlit "await Assert.That(", RE.group 1 (plusNot ")"), rlit ").IsLessThan(", RE.group 2 (plusNot ")"), rlit ");"])
    [tl "Assert.True(", TI.ref 1, tl " < ", TI.ref 2, tl ");"] c
  -- line 71: ...IsLessThanOrEqualTo... -> Assert.True(\1 <= \2);
  let c := resub (seqs [rlit "await Assert.That(", RE.group 1 (plusNot ")"), rlit ").IsLessThanOrEqualTo(", RE.group 2 (plusNot ")"), rlit ");"])
    [tl "Assert.True(", TI.ref 1, tl " <= ", TI.ref 2, tl ");"] c
  -- line 74: ...Contains\(([^)]+)\); -> Assert.Contains(\2, \1);
  let c := resub (seqs [rlit "await Assert.That(", RE.group 1 (plusNot ")"), rlit ").Contains(", RE.group 2 (plusNot ")"), rlit ");"])
    [tl "Assert.Contains(", TI.ref 2, tl ", ", TI.ref 1, tl ");"] c
  -- line 75: ...DoesNotContain... -> Assert.DoesNotContain(\2, \1);
  let c := resub (seqs [rlit "await Assert.That(", RE.group 1 (plusNot ")"), rlit ").DoesNotContain(", RE.group 2 (plusNot ")"), rlit ");"])
    [tl "Assert.DoesNotContain(", TI.ref 2, tl ", ", TI.ref 1, tl ");"] c
  -- line 76: ...IsEmpty\(\); -> Assert.Empty(\1);
  let c := resub (seqs [rlit "await Assert.That(", RE.group 1 (plusNot ")"), rlit ").IsEmpty();"])
    [tl "Assert.Empty(", TI.ref 1, tl ");"] c
  -- line 77: ...IsNotEmpty\(\); -> Assert.NotEmpty(\1);
  let c := resub (seqs [rlit "await Assert.That(", RE.group 1 (plusNot ")"), rlit ").IsNotEmpty();"])
    [tl "Assert.NotEmpty(", TI.ref 1, tl ");"] c
  -- line 80: ...HasCount\(([^)]+)\); -> Assert.Equal(\2, \1.Count);
  let c := resub (seqs [rlit "await Assert.That(", RE.group 1 (plusNot ")"), rlit ").HasCount(", RE.group 2 (plusNot ")"), rlit ");"])
    [tl "Assert.Equal(", TI.ref 2, tl ", ", TI.ref 1, tl ".Count);"] c
  -- line 81: Assert\.Equal\(0, ([^)]+)\.Count\); -> Assert.Empty(\1);
  let c := resub (seqs [rlit "Assert.Equal(0, ", RE.group 1 (plusNot ")"), rlit ".Count);"])
    [tl "Assert.Empty(", TI.ref 1, tl ");"] c
  -- line 82: Assert\.Equal\(1, ([^)]+)\.Count\); -> Assert.Single(\1);
  let c := resub (seqs [rlit "Assert.Equal(1, ", RE.group 1 (plusNot ")"), rlit ".Count);"])
    [tl "Assert.Single(", TI.ref 1, tl ");"] c
  -- line 85: ...IsTypeOf<([^>]+)>\(\); -> Assert.IsType<\2>(\1);
  let c := resub (seqs [rlit "await Assert.That(", RE.group 1 (plusNot ")"), rlit ").IsTypeOf<", RE.group 2 (plusNot ">"), rlit ">();"])
    [tl "Assert.IsType<", TI.ref 2, tl ">(", TI.ref 1, tl ");"] c
  -- line 86: ...IsAssignableFrom<([^>]+)>\(\); -> Assert.IsAssignableFrom<\2>(\1);
  let c := resub (seqs [rlit "await Assert.That(", RE.group 1 (plusNot ")"), rlit ").IsAssignableFrom<", RE.group 2 (plusNot ">"), rlit ">();"])
    [tl "Assert.IsAssignableFrom<", TI.ref 2, tl ">(", TI.ref 1, tl ");"] c
  -- line 104: await Assert\.That\([^;]+\); with function replacement
  let c := resubF (seqs [rlit "await Assert.That(", plusNot ";", rlit ");"]) (fun m _ => multiRepl m) c
  -- lines 108-133
  joinNl (step6Go (splitNl c))

/-- Pure transformation applied by `convert_file` after the marker check, up
to and including the async-removal pass (source lines 23-133): the TUnit
`using` removals, the `using Xunit;` insertion of lines 28-40, and the
substitution rules. -/
def convertPreDedup (c0 : List Char) : List Char :=
  convertRules (ensureXunitUsing (convertRemovals c0))

/-- Full pure transformation of `convert_file` (source lines 23-147): the
substitution passes followed by the duplicate-`using` removal of lines
136-147. -/
def convertTransform (c0 : List Char) : List Char :=
  joinNl (dedupUsings (splitNl (convertPreDedup c0)))

/-! ## `fix-xunit-warnings.py` -/

/-- Pure transformation of `fix_xunit_warnings` (source lines 15-33), each
`re.sub` in source order. -/
def fixWarningsTransform (c0 : List Char) : List Char :=
  -- line 17: Assert\.True\(([^.]+)\.Contains\(([^)]+)\)\); -> Assert.Contains(\2, \1);
  let c := resub (seqs [rlit "Assert.True(", RE.group 1 (plusNot "."), rlit ".Contains(", RE.group 2 (plusNot ")"), rlit "));"])
    [tl "Assert.Contains(", TI.ref 2, tl ", ", TI.ref 1, tl ");"] c0
  -- line 21: Assert\.Equal\(0, ([^.]+)\.Count\); -> Assert.Empty(\1);
  let c := resub (seqs [rlit "Assert.Equal(0, ", RE.group 1 (plusNot "."), rlit ".Count);"])
    [tl "Assert.Empty(", TI.ref 1, tl ");"] c
  -- line 23: Assert\.Equal\(0, ([^.]+)\.Length\); -> Assert.Empty(\1);
  let c := resub (seqs [rlit "Assert.Equal(0, ", RE.group 1 (plusNot "."), rlit ".Length);"])
    [tl "Assert.Empty(", TI.ref 1, tl ");"] c
  -- line 28: Assert\.Equal\(([^,]+\.GetProperty\([^)]+\)\.GetString\(\)), ("([^"]*)")\); -> Assert.Equal(\2, \1);
  let c := resub (seqs [rlit "Assert.Equal(",
      RE.group 1 (seqs [plusNot ",", rlit ".GetProperty(", plusNot ")", rlit ").GetString()"]),
      rlit ", ", RE.group 2 (seqs [rlit "\"", RE.group 3 (RE.star (CC.noneOf ['"'])), rlit "\""]), rlit ");"])
    [tl "Assert.Equal(", TI.ref 2, tl ", ", TI.ref 1, tl ");"] c
  -- line 32: Assert\.Equal\(([^,]+), ("([^"]*)")\); -> Assert.Equal(\2, \1);
  let c := resub (seqs [rlit "Assert.Equal(", RE.group 1 (plusNot ","), rlit ", ",
      RE.group 2 (seqs [rlit "\"", RE.group 3 (RE.star (CC.noneOf ['"'])), rlit "\""]), rlit ");"])
    [tl "Assert.Equal(", TI.ref 2, tl ", ", TI.ref 1, tl ");"] c
  c

/-! ## `fix-final-assertions.py` -/

/-- Pure transformation of `fix_file` (source lines 14-52), each `re.sub` in
source order. -/
def fixFinalTransform (c0 : List Char) : List Char :=
  -- line 15: await Assert\.That\(([^)]+\.GetProperty\([^)]+\)\.GetInt32\(\))\)\.IsGreaterThan\((\d+)\); -> Assert.True(\1 > \2);
  let c := resub (seqs [rlit "await Assert.That(",
      RE.group 1 (seqs [plusNot ")", rlit ".GetProperty(", plusNot ")", rlit ").GetInt32()"]),
      rlit ").IsGreaterThan(", RE.group 2 plusDigit, rlit ");"])
    [tl "Assert.True(", TI.ref 1, tl " > ", TI.ref 2, tl ");"] c0
  -- line 18: ...IsGreaterThanOrEqualTo\((\d+)\); -> Assert.True(\1 >= \2);
  let c := resub (seqs [rlit "await Assert.That(",
      RE.group 1 (seqs [plusNot ")", rlit ".GetProperty(", plusNot ")", rlit ").GetInt32()"]),
      rlit ").IsGreaterThanOrEqualTo(", RE.group 2 plusDigit, rlit ");"])
    [tl "Assert.True(", TI.ref 1, tl " >= ", TI.ref 2, tl ");"] c
  -- line 21: await Assert\.That\(([^)]+\.GetProperty\([^)]+\)\.GetString\(\))\)\.Contains\(([^)]+)\); -> Assert.Contains(\2, \1);
  let c := resub (seqs [rlit "await Assert.That(",
      RE.group 1 (seqs [plusNot ")", rlit ".GetProperty(", plusNot ")", rlit ").GetString()"]),
      rlit ").Contains(", RE.group 2 (plusNot ")"), rlit ");"])
    [tl "Assert.Contains(", TI.ref 2, tl ", ", TI.ref 1, tl ");"] c
  -- line 24: await Assert\.That\(([^)]+)\)\.Contains\(([^)]+)\); -> Assert.Contains(\2, \1);
  let c := resub (seqs [rlit "await Assert.That(", RE.group 1 (plusNot ")"), rlit ").Contains(", RE.group 2 (plusNot ")"), rlit ");"])
    [tl "Assert.Contains(", TI.ref 2, tl ", ", TI.ref 1, tl ");"] c
  -- line 28: Assert\.Equal\(([^,]+\.GetProperty\([^)]+\)\.GetString\(\)), ("([^"]*)")\); -> Assert.Equal(\2, \1);
  let c := resub (seqs [rlit "Assert.Equal(",
      RE.group 1 (seqs [plusNot ",", rlit ".GetProperty(", plusNot ")", rlit ").GetString()"]),
      rlit ", ", RE.group 2 (seqs [rlit "\"", RE.group 3 (RE.star (CC.noneOf ['"'])), rlit "\""]), rlit ");"])
    [tl "Assert.Equal(", TI.ref 2, tl ", ", TI.ref 1, tl ");"] c
  -- line 31: Assert\.Equal\(([^,]+\.GetProperty\([^)]+\)\.GetInt32\(\)), (\d+)\); -> Assert.Equal(\2, \1);
  let c := resub (seqs [rlit "Assert.Equal(",
      RE.group 1 (seqs [plusNot ",", rlit ".GetProperty(", plusNot ")", rlit ").GetInt32()"]),
      rlit ", ", RE.group 2 plusDigit, rlit ");"])
    [tl "Assert.Equal(", TI.ref 2, tl ", ", TI.ref 1, tl ");"] c
  -- line 34: Assert\.Equal\(([^,]+\.GetProperty\([^)]+\)\.GetBoolean\(\)), (true|false)\); -> Assert.Equal(\2, \1);
  let c := resub (seqs [rlit "Assert.Equal(",
      RE.group 1 (seqs [plusNot ",", rlit ".GetProperty(", plusNot ")", rlit ").GetBoolean()"]),
      rlit ", ", RE.group 2 (RE.alt (rlit "true") (rlit "false")), rlit ");"])
    [tl "Assert.Equal(", TI.ref 2, tl ", ", TI.ref 1, tl ");"] c
  -- line 37: Assert\.Equal\(([^,]+), (JsonValueKind\.[A-Za-z]+)\); -> Assert.Equal(\2, \1);
  let c := resub (seqs [rlit "Assert.Equal(", RE.group 1 (plusNot ","), rlit ", ",
      RE.group 2 (seqs [rlit "JsonValueKind.", plusAlpha]), rlit ");"])
    [tl "Assert.Equal(", TI.ref 2, tl ", ", TI.ref 1, tl ");"] c
  -- line 41: Assert\.True\(([^.]+)\.Contains\(([^)]+)\)\); -> Assert.Contains(\2, \1);
  let c := resub (seqs [rlit "Assert.True(", RE.group 1 (plusNot "."), rlit ".Contains(", RE.group 2 (plusNot ")"), rlit "));"])
    [tl "Assert.Contains(", TI.ref 2, tl ", ", TI.ref 1, tl ");"] c
  -- line 44: Assert\.Equal\(0, ([^.]+)\.Count\); -> Assert.Empty(\1);
  let c := resub (seqs [rlit "Assert.Equal(0, ", RE.group 1 (plusNot "."), rlit ".Count);"])
    [tl "Assert.Empty(", TI.ref 1, tl ");"] c
  -- line 48: Assert\.True\(([^.]+)\.StartsWith\(([^)]+)\)\); -> Assert.StartsWith(\2, \1);
  let c := resub (seqs [rlit "Assert.True(", RE.group 1 (plusNot "."), rlit ".StartsWith(", RE.group 2 (plusNot ")"), rlit "));"])
    [tl "Assert.StartsWith(", TI.ref 2, tl ", ", TI.ref 1, tl ");"] c
  -- line 51: Assert\.True\(([^.]+)\.EndsWith\(([^)]+)\)\); -> Assert.EndsWith(\2, \1);
  let c := resub (seqs [rlit "Assert.True(", RE.group 1 (plusNot "."), rlit ".EndsWith(", RE.group 2 (plusNot ")"), rlit "));"])
    [tl "Assert.EndsWith(", TI.ref 2, tl ", ", TI.ref 1, tl ");"] c
  c

/-! ## File system model and per-file steps -/

/-- Errors raised while processing a file: I/O failures (missing file,
read-only write target) and the `re.error` raised by a malformed pattern. -/
inductive PyErr where
  | ioError
  | reError
deriving DecidableEq

/-- Per-file console outcome. -/
inductive Report where
  | convertedR
  | skippedR
  | fixedR
  | noChangeR
  | errorR (e : PyErr)
deriving DecidableEq

/-- File system: path-to-content association list, the set of paths whose
write raises, and a log of the write events that occurred. -/
structure FS where
  files : List (String × List Char)
  readOnly : List String
  log : List (String × List Char)
deriving DecidableEq

/-- Read a file's content (`open(p).read()`); `none` when the file is absent. -/
def readFS (fs : FS) (p : String) : Option (List Char) := List.lookup p fs.files

/-- Update an association list at a key, appending when absent. -/
def setAssoc : List (String × List Char) → String → List Char → List (String × List Char)
  | [], p, c => [(p, c)]
  | (q, d) :: t, p, c => if q = p then (p, c) :: t else (q, d) :: setAssoc t p c

/-- Write a file (`open(p, 'w').write(c)`): raises on a read-only path,
otherwise updates the content and logs the write event. -/
def writeFS (fs : FS) (p : String) (c : List Char) : Except PyErr FS :=
  if fs.readOnly.contains p then .error .ioError
  else .ok ⟨setAssoc fs.files p c, fs.readOnly, fs.log ++ [(p, c)]⟩

/-- `convert_file` (source lines 11-153): read, skip when no trigger marker,
otherwise transform and write back unconditionally. -/
def convertFileStep (fs : FS) (p : String) : Except PyErr (FS × Report) :=
  match readFS fs p with
  | none => .error .ioError
  | some c =>
    if hasMarkersB c then
      match writeFS fs p (convertTransform c) with
      | .error e => .error e
      | .ok fs1 => .ok (fs1, .convertedR)
    else .ok (fs, .skippedR)

/-- `fix_file` of `fix-final-assertions.py` (source lines 8-59): read,
transform, and write back only when the content changed. -/
def fixFileStep (fs : FS) (p : String) : Except PyErr (FS × Report) :=
  match readFS fs p with
  | none => .error .ioError
  | some c =>
    let c1 := fixFinalTransform c
    if c1 = c then .ok (fs, .noChangeR)
    else
      match writeFS fs p c1 with
      | .error e => .error e
      | .ok fs1 => .ok (fs1, .fixedR)

/-- `fix_xunit_warnings` (source lines 9-40): read, transform, and write back
only when the content changed. -/
def fixWarningsStep (fs : FS) (p : String) : Except PyErr (FS × Report) :=
  match readFS fs p with
  | none => .error .ioError
  | some c =>
    let c1 := fixWarningsTransform c
    if c1 = c then .ok (fs, .noChangeR)
    else
      match writeFS fs p c1 with
      | .error e => .error e
      | .ok fs1 => .ok (fs1, .fixedR)

/-- `fix_remaining_assertions` (source lines 10-71): after reading the file
and applying the substitutions of lines 20-34, the `re.sub` call at line 35
compiles the pattern `Assert\.Equal\(([^,]+), (\'([^\']*)\'))`, whose final
parenthesis is unbalanced, so `re.error` is raised on every invocation and
the write at line 67 is never reached. -/
def fixRemainingStep (fs : FS) (p : String) : Except PyErr (FS × Report) :=
  match readFS fs p with
  | none => .error .ioError
  | some _ => .error .reError

/-- Common shape of the diff-guarded per-file steps (`fix_file` and
`fix_xunit_warnings` differ only in the transformation they apply): read,
transform, and write back only when the content changed. -/
def diffGuardStep (tf : List Char → List Char) (fs : FS) (p : String) :
    Except PyErr (FS × Report) :=
  match readFS fs p with
  | none => .error .ioError
  | some c =>
    let c1 := tf c
    if c1 = c then .ok (fs, .noChangeR)
    else
      match writeFS fs p c1 with
      | .error e => .error e
      | .ok fs1 => .ok (fs1, .fixedR)

/-- Batch loop shared by the scripts' `main` (e.g. source lines 168-172 of
`convert-tunit-to-xunit.py`): process each candidate in order inside
`try/except`, reporting a caught error for the file and continuing. -/
def runBatch (step : FS → String → Except PyErr (FS × Report)) :
    FS → List String → FS × List (String × Report)
  | fs, [] => (fs, [])
  | fs, p :: ps =>
    match step fs p with
    | .ok (fs1, r) =>
      let rec2 := runBatch step fs1 ps
      (rec2.1, (p, r) :: rec2.2)
    | .error e =>
      let rec2 := runBatch step fs ps
      (rec2.1, (p, .errorR e) :: rec2.2)

/-! ## Candidate-file selection -/

/-- Exclusion set shared by the scripts (e.g. source line 163 of
`convert-tunit-to-xunit.py`). -/
def skipNames : List (List Char) :=
  [lch "InMemoryAnalysisService.cs", lch "InMemoryProjectGenerator.cs", lch "TestSetup.cs"]

/-- Candidate filter of `convert-tunit-to-xunit.py` line 164 (also
`fix-remaining-xunit-issues.py` line 82): exclude by base name. -/
def convertCandidates (files : List (List Char)) : List (List Char) :=
  files.filter (fun f => !(decide (basenameL f ∈ skipNames)))

/-- Candidate filter of `fix-xunit-warnings.py` line 45: exclude any path
that contains an excluded name as a substring. -/
def warningsCandidates (files : List (List Char)) : List (List Char) :=
  files.filter (fun f => !(skipNames.any (fun s => containsSub f s)))

set_option maxRecDepth 1000000

deriving instance DecidableEq for Except

deriving instance DecidableEq for TI

/-! ## Specification-side definitions

These are declarative counterparts, written from the specification's wording,
against which the embedded code is compared. -/

/-- Specification-side: keep only the first occurrence of each element. -/
def keepFirstGo : List (List Char) → List (List Char) → List (List Char)
  | _, [] => []
  | seen, x :: xs =>
    if seen.contains x then keepFirstGo seen xs
    else x :: keepFirstGo (x :: seen) xs

/-- Specification-side: first occurrences of a list of lines. -/
def keepFirst (xs : List (List Char)) : List (List Char) := keepFirstGo [] xs

/-- Whether a line starts with `using ` but not with `using Xunit` (the lines
that advance the insertion index). -/
def goodUsing (l : List Char) : Bool :=
  startsW l (lch "using ") && !startsW l (lch "using Xunit")

/-- Whether a line starts with `namespace `. -/
def nsLine (l : List Char) : Bool := startsW l (lch "namespace ")

/-- Specification-side insertion index: one past the last `goodUsing` line
that precedes the first `namespace ` line, and `0` when there is none. -/
def specIdx : List (List Char) → Nat
  | [] => 0
  | l :: rest =>
    if nsLine l then 0
    else
      let r := specIdx rest
      if r > 0 then r + 1
      else if goodUsing l then 1
      else 0

/-- Net brace balance contributed by one line: occurrences of `{` minus
occurrences of `}`. -/
def braceDelta (l : List Char) : Int :=
  (l.count '{' : Int) - (l.count '}' : Int)

/-- Brace balance of a block of lines. -/
def braceBal (ls : List (List Char)) : Int := (ls.map braceDelta).sum

/-- Specification-side method extent: the first line index `j` such that some
line among the first `j + 1` contains `{` and the brace balance of the first
`j + 1` lines is zero. -/
def specEnd (ls : List (List Char)) : Option Nat :=
  (List.range ls.length).find? (fun j =>
    ((ls.take (j + 1)).any (fun l => l.contains '{')) && braceBal (ls.take (j + 1)) == 0)

/-- Specification-side local result of running the TUnit-to-xUnit conversion
over one file: a missing file stays missing, a file without trigger markers
or with a failing write keeps its content, any other file holds the
transformed content. -/
def convertLocal (ro : Bool) : Option (List Char) → Option (List Char)
  | none => none
  | some c =>
    if hasMarkersB c then
      if ro then some c else some (convertTransform c)
    else some c

/-- Specification-side local result of running a diff-guarded per-file step
over one file: a missing file stays missing, unchanged content stays put, a
read-only target keeps its content, any other file holds the transformed
content. -/
def guardLocal (tf : List Char → List Char) (ro : Bool) :
    Option (List Char) → Option (List Char)
  | none => none
  | some c =>
    if tf c = c then some c
    else if ro then some c else some (tf c)

/-- A pattern that never matches the empty string (every match consumes at
least one character). -/
def NeverEmpty (p : RE) : Prop :=
  ∀ s g pr, pr ∈ mrun p s g → List.length pr.1 < s.length

/-- Declarative single-pass substitution semantics: the output interleaves
unmatched characters (at whose positions the pattern does not match) with
replacements of non-overlapping leftmost matches; replacement text is emitted
verbatim and never rescanned, and matching resumes after each match. -/
inductive SinglePassSpec (p : RE) (f : List Char → Caps → List Char) :
    List Char → List Char → Prop where
  | nil : SinglePassSpec p f [] []
  | skip (c : Char) (cs out : List Char) :
      mrun p (c :: cs) [] = [] →
      SinglePassSpec p f cs out →
      SinglePassSpec p f (c :: cs) (c :: out)
  | repl (m rest : List Char) (gr : Caps) (tail1 : List (List Char × Caps)) (out : List Char) :
      m ≠ [] →
      mrun p (m ++ rest) [] = (rest, gr) :: tail1 →
      SinglePassSpec p f rest out →
      SinglePassSpec p f (m ++ rest) (f m gr ++ out)

/-! ## Line-survival analysis

To reason about which lines of the buffer a substitution pass can touch, the
rule patterns are classified by shape: a bare literal, literal/group/literal,
literal/group/literal/group/literal, and literal/class-run/literal (the
whole-match function-replacement rule).  `TRule.re` builds exactly the
regular expression the pipeline uses for each shape, so the generic survival
theorem applies to the pipeline's rules definitionally. -/

/-- A tail of the buffer that is empty or starts a new line. -/
def endFlank (v : List Char) : Prop := v = [] ∨ ∃ v2, v = '\n' :: v2

/-- Shapes of the substitution rules used by the scripts. -/
inductive TRule where
  | r0 (a : List Char)
  | r1 (a : List Char) (c1 : CC) (b : List Char)
  | r2 (a : List Char) (c1 : CC) (b : List Char) (c2 : CC) (d : List Char)
  | rP (a : List Char) (c1 : CC) (d : List Char)

/-- The regular expression of a rule shape (`r1`/`r2` capture their class
runs as groups 1 and 2, `rP` leaves the run uncaptured). -/
def TRule.re : TRule → RE
  | .r0 a => RE.str a
  | .r1 a c b =>
    RE.seq (RE.str a) (RE.seq (RE.group 1 (RE.seq (RE.cls c) (RE.star c)))
      (RE.seq (RE.str b) RE.eps))
  | .r2 a c b c2 d =>
    RE.seq (RE.str a) (RE.seq (RE.group 1 (RE.seq (RE.cls c) (RE.star c)))
      (RE.seq (RE.str b) (RE.seq (RE.group 2 (RE.seq (RE.cls c2) (RE.star c2)))
        (RE.seq (RE.str d) RE.eps))))
  | .rP a c d =>
    RE.seq (RE.str a) (RE.seq (RE.seq (RE.cls c) (RE.star c))
      (RE.seq (RE.str d) RE.eps))

/-- A pattern literal that cannot overlap the protected line `w`: it is
non-empty, contains no newline, and its first character is neither a newline
nor a character of `w`. -/
def litSafe (w l : List Char) : Bool :=
  match l with
  | [] => false
  | c :: _ => !l.contains '\n' && !(('\n' :: w).contains c)

/-- Decidable conditions under which a rule shape cannot break the line `w`:
every literal of the pattern is `litSafe`, and for the uncaptured shape the
class additionally rejects some character of the line block. -/
def ruleSafe (w : List Char) : TRule → Bool
  | .r0 a => litSafe w a
  | .r1 a _ b => litSafe w a && litSafe w b
  | .r2 a _ b _ d => litSafe w a && litSafe w b && litSafe w d
  | .rP a c d => litSafe w a && litSafe w d &&
      (('\n' :: w).any (fun ch => !ccMatch c ch))

/-- Replacement property needed for line survival: the replacement emits the
captured group(s) verbatim somewhere in its output. -/
def blockEmit : TRule → (List Char → Caps → List Char) → List Char → Caps → Prop
  | .r1 _ _ _, f, m, gr => ∃ x y, f m gr = x ++ grpGet gr 1 ++ y
  | .r2 _ _ _ _ _, f, m, gr =>
    (∃ x y, f m gr = x ++ grpGet gr 1 ++ y) ∧
    (∃ x y, f m gr = x ++ grpGet gr 2 ++ y)
  | _, _, _, _ => True

/-! ## Basic lemmas about the string utilities -/

theorem containsSub_of_prefix {h n : List Char} (hp : n <+: h) : containsSub h n = true := by
  cases h with
  | nil =>
    have : n = [] := List.prefix_nil.mp hp
    simp [containsSub, this, List.isEmpty]
  | cons c t =>
    have : n.isPrefixOf (c :: t) = true := List.isPrefixOf_iff_prefix.mpr hp
    simp [containsSub, this]

theorem containsSub_of_suffix {h n : List Char} (hs : n <:+ h) : containsSub h n = true := by
  obtain ⟨u, hu⟩ := hs
  induction u generalizing h with
  | nil => exact containsSub_of_prefix (hu ▸ List.prefix_refl n)
  | cons c u ih =>
    subst hu
    have := ih (h := u ++ n) rfl
    simp [containsSub, this]

theorem basenameL_suffix (p : List Char) : basenameL p <:+ p := by
  have h1 : p.reverse.takeWhile (fun c => !(c = '/')) <+: p.reverse :=
    List.takeWhile_prefix _
  have h2 : (p.reverse.takeWhile (fun c => !(c = '/'))).reverse <:+ p.reverse.reverse :=
    List.reverse_suffix.mpr h1
  rw [List.reverse_reverse] at h2
  exact h2

theorem splitNl_ne_nil (s : List Char) : splitNl s ≠ [] := by
  cases s with
  | nil => simp [splitNl]
  | cons c t =>
    by_cases h : c = '\n'
    · simp [splitNl, h]
    · simp only [splitNl, if_neg h]
      cases hs : splitNl t <;> simp

theorem mem_splitNl_no_nl : ∀ {s : List Char} {l : List Char}, l ∈ splitNl s → '\n' ∉ l := by
  intro s
  induction s with
  | nil => intro l hl; simp [splitNl] at hl; simp [hl]
  | cons c t ih =>
    intro l hl
    by_cases h : c = '\n'
    · simp only [splitNl, if_pos h] at hl
      rcases List.mem_cons.mp hl with h1 | h1
      · simp [h1]
      · exact ih h1
    · simp only [splitNl, if_neg h] at hl
      cases hs : splitNl t with
      | nil => exact absurd hs (splitNl_ne_nil t)
      | cons l0 ls =>
        rw [hs] at hl
        rcases List.mem_cons.mp hl with h1 | h1
        · subst h1
          intro hmem
          rcases List.mem_cons.mp hmem with h2 | h2
          · exact h h2.symm
          · exact ih (hs ▸ List.mem_cons_self l0 ls) h2
        · exact ih (hs ▸ List.mem_cons_of_mem l0 h1)

theorem splitNl_no_nl {l : List Char} (h : '\n' ∉ l) : splitNl l = [l] := by
  induction l with
  | nil => simp [splitNl]
  | cons c t ih =>
    have hc : ¬(c = '\n') := fun hh => h (hh ▸ List.mem_cons_self c t)
    have ht : '\n' ∉ t := fun hh => h (List.mem_cons_of_mem c hh)
    simp only [splitNl, if_neg hc, ih ht]

theorem splitNl_append_nl {l : List Char} (rest : List Char) (h : '\n' ∉ l) :
    splitNl (l ++ '\n' :: rest) = l :: splitNl rest := by
  induction l with
  | nil => simp [splitNl]
  | cons c t ih =>
    have hc : ¬(c = '\n') := fun hh => h (hh ▸ List.mem_cons_self c t)
    have ht : '\n' ∉ t := fun hh => h (List.mem_cons_of_mem c hh)
    simp only [List.cons_append, splitNl, if_neg hc, List.append_eq, ih ht]

theorem splitNl_joinNl : ∀ {ls : List (List Char)}, ls ≠ [] →
    (∀ l ∈ ls, '\n' ∉ l) → splitNl (joinNl ls) = ls := by
  intro ls
  induction ls with
  | nil => intro h; exact absurd rfl h
  | cons l ls ih =>
    intro _ hnl
    cases ls with
    | nil => simpa [joinNl] using splitNl_no_nl (hnl l (List.mem_cons_self l []))
    | cons l2 ls2 =>
      have h1 : '\n' ∉ l := hnl l (List.mem_cons_self l (l2 :: ls2))
      have h2 : ∀ x ∈ l2 :: ls2, '\n' ∉ x := fun x hx => hnl x (List.mem_cons_of_mem l hx)
      simp only [joinNl, splitNl_append_nl _ h1, ih (by simp) h2]

theorem strRepGo_no_occ {n : List Char} (r : List Char) (hn : n ≠ []) :
    ∀ (fuel : Nat) (s : List Char), containsSub s n = false → strRepGo fuel s n r = s := by
  intro fuel
  induction fuel with
  | zero => intro s _; rfl
  | succ fuel ih =>
    intro s hs
    cases s with
    | nil => rfl
    | cons c t =>
      simp only [containsSub, Bool.or_eq_false_iff] at hs
      simp only [strRepGo, hs.1, Bool.false_eq_true, if_false, ih t hs.2]

theorem strReplace_no_occ {n : List Char} (r : List Char) (hn : n ≠ [])
    {s : List Char} (hs : containsSub s n = false) : strReplace s n r = s := by
  have : n.isEmpty = false := by cases n with
    | nil => exact absurd rfl hn
    | cons a t => rfl
  simp only [strReplace, this, Bool.false_eq_true, if_false]
  exact strRepGo_no_occ r hn _ s hs

theorem strReplace_once {n t : List Char} (r : List Char) (hn : n ≠ [])
    (ht : containsSub t n = false) : strReplace (n ++ t) n r = r ++ t := by
  cases n with
  | nil => exact absurd rfl hn
  | cons a n' =>
    have hpre : (a :: n').isPrefixOf (a :: (n' ++ t)) = true := by
      have := List.isPrefixOf_iff_prefix.mpr (List.prefix_append (a :: n') t)
      simpa using this
    have hdrop2 : List.drop (n'.length + 1) (a :: (n' ++ t)) = t := by
      rw [List.drop_succ_cons]
      exact List.drop_left n' t
    show strRepGo ((a :: n' ++ t).length + 1) (a :: n' ++ t) (a :: n') r = r ++ t
    simp only [List.cons_append, List.length_cons, strRepGo, List.append_eq, hpre, if_true,
      hdrop2]
    rw [strRepGo_no_occ r hn _ t ht]

/-! ## Lemmas about the duplicate-`using` removal pass -/

theorem contains_iff_mem_ll {seen : List (List Char)} {x : List Char} :
    seen.contains x = true ↔ x ∈ seen := by
  show seen.elem x = true ↔ x ∈ seen
  exact List.elem_iff

theorem dedupGo_filter_using : ∀ (ls seen : List (List Char)),
    (dedupGo seen ls).filter usingLine = keepFirstGo seen (ls.filter usingLine) := by
  intro ls
  induction ls with
  | nil => intro seen; rfl
  | cons l ls ih =>
    intro seen
    by_cases hu : usingLine l
    · by_cases hc : seen.contains l
      · simp only [dedupGo, hu, if_true, hc, List.filter_cons, keepFirstGo, ih]
      · simp only [dedupGo, hu, if_true, hc, List.filter_cons, keepFirstGo, ih,
          Bool.false_eq_true, if_false]
    · have hu' : usingLine l = false := by simp [hu]
      simp only [dedupGo, hu', Bool.false_eq_true, if_false, List.filter_cons, ih]

theorem dedupGo_filter_not : ∀ (ls seen : List (List Char)),
    (dedupGo seen ls).filter (fun l => !usingLine l) = ls.filter (fun l => !usingLine l) := by
  intro ls
  induction ls with
  | nil => intro seen; rfl
  | cons l ls ih =>
    intro seen
    by_cases hu : usingLine l
    · by_cases hc : seen.contains l
      · simp only [dedupGo, hu, if_true, hc, List.filter_cons, ih, Bool.not_true,
          Bool.false_eq_true, if_false]
      · simp only [dedupGo, hu, if_true, hc, Bool.false_eq_true, if_false,
          List.filter_cons, ih, Bool.not_true]
    · have hu' : usingLine l = false := by simp [hu]
      simp only [dedupGo, hu', Bool.false_eq_true, if_false, List.filter_cons, ih,
        Bool.not_false, if_true]

theorem mem_keepFirstGo_not_seen : ∀ (xs seen x : _),
    x ∈ keepFirstGo seen xs → x ∉ seen := by
  intro xs
  induction xs with
  | nil => intro seen x hx; simp [keepFirstGo] at hx
  | cons y xs ih =>
    intro seen x hx
    by_cases hc : seen.contains y = true
    · exact ih seen x (by simpa only [keepFirstGo, hc, if_true] using hx)
    · have hc' : seen.contains y = false := Bool.not_eq_true _ ▸ eq_false_of_ne_true hc
      simp only [keepFirstGo, hc', Bool.false_eq_true, if_false] at hx
      rcases List.mem_cons.mp hx with h1 | h1
      · subst h1
        intro hmem
        exact hc (contains_iff_mem_ll.mpr hmem)
      · intro hmem
        exact ih (y :: seen) x h1 (List.mem_cons_of_mem y hmem)

theorem keepFirstGo_nodup : ∀ (xs seen : List (List Char)), (keepFirstGo seen xs).Nodup := by
  intro xs
  induction xs with
  | nil => intro seen; simp [keepFirstGo]
  | cons y xs ih =>
    intro seen
    by_cases hc : seen.contains y = true
    · simpa only [keepFirstGo, hc, if_true] using ih seen
    · have hc' : seen.contains y = false := eq_false_of_ne_true hc
      simp only [keepFirstGo, hc', Bool.false_eq_true, if_false, List.nodup_cons]
      refine ⟨fun hmem => ?_, ih (y :: seen)⟩
      exact mem_keepFirstGo_not_seen xs (y :: seen) y hmem (List.mem_cons_self y seen)

theorem mem_dedupGo : ∀ (ls seen x : _), x ∈ dedupGo seen ls → x ∈ ls := by
  intro ls
  induction ls with
  | nil => intro seen x hx; simp [dedupGo] at hx
  | cons l ls ih =>
    intro seen x hx
    by_cases hu : usingLine l
    · by_cases hc : seen.contains l
      · simp only [dedupGo, hu, if_true, hc] at hx
        exact List.mem_cons_of_mem l (ih seen x hx)
      · simp only [dedupGo, hu, if_true, hc, Bool.false_eq_true, if_false] at hx
        rcases List.mem_cons.mp hx with h1 | h1
        · exact h1 ▸ List.mem_cons_self l ls
        · exact List.mem_cons_of_mem l (ih (l :: seen) x h1)
    · have hu' : usingLine l = false := by simp [hu]
      simp only [dedupGo, hu', Bool.false_eq_true, if_false] at hx
      rcases List.mem_cons.mp hx with h1 | h1
      · exact h1 ▸ List.mem_cons_self l ls
      · exact List.mem_cons_of_mem l (ih seen x h1)

theorem dedupUsings_ne_nil {ls : List (List Char)} (h : ls ≠ []) : dedupUsings ls ≠ [] := by
  cases ls with
  | nil => exact absurd rfl h
  | cons l ls =>
    by_cases hu : usingLine l
    · simp [dedupUsings, dedupGo, hu]
    · have hu' : usingLine l = false := by simp [hu]
      simp [dedupUsings, dedupGo, hu']

/-- C9: in the output of the TUnit-to-xUnit conversion every line beginning
with `using ` occurs at most once; the deduplication pass keeps exactly the
first occurrence of each distinct using line and preserves the content and
relative order of all other lines. -/
theorem c9_using_dedup :
    (∀ c : List Char, ((splitNl (convertTransform c)).filter usingLine).Nodup) ∧
    (∀ ls : List (List Char),
      (dedupUsings ls).filter usingLine = keepFirst (ls.filter usingLine)) ∧
    (∀ ls : List (List Char),
      (dedupUsings ls).filter (fun l => !usingLine l) = ls.filter (fun l => !usingLine l)) := by
  refine ⟨fun c => ?_, fun ls => dedupGo_filter_using ls [], fun ls => dedupGo_filter_not ls []⟩
  show ((splitNl (joinNl (dedupUsings (splitNl (convertPreDedup c))))).filter usingLine).Nodup
  have hne : dedupUsings (splitNl (convertPreDedup c)) ≠ [] :=
    dedupUsings_ne_nil (splitNl_ne_nil _)
  have hnl : ∀ l ∈ dedupUsings (splitNl (convertPreDedup c)), '\n' ∉ l := by
    intro l hl
    exact mem_splitNl_no_nl (mem_dedupGo _ [] l hl)
  rw [splitNl_joinNl hne hnl]
  show (List.filter usingLine (dedupGo [] (splitNl (convertPreDedup c)))).Nodup
  rw [dedupGo_filter_using _ []]
  exact keepFirstGo_nodup _ []

/-- C2 counterexample: the path `/r/AInMemoryAnalysisService.cs` has base name
`AInMemoryAnalysisService.cs`, which is not in the exclusion set, yet
`fix-xunit-warnings.py` filters it out because the excluded name
`InMemoryAnalysisService.cs` occurs in the path as a substring. -/
theorem c2_counterexample :
    warningsCandidates [lch "/r/AInMemoryAnalysisService.cs"] = [] ∧
    decide (basenameL (lch "/r/AInMemoryAnalysisService.cs") ∈ skipNames) = false ∧
    lch "/r/AInMemoryAnalysisService.cs" ∈ [lch "/r/AInMemoryAnalysisService.cs"] := by
  refine ⟨by decide, by decide, by decide⟩

/-- C2 (amended): the basename filter of `convert-tunit-to-xunit.py` and
`fix-remaining-xunit-issues.py` keeps exactly the matched files whose base
name is outside the exclusion set, while the substring filter of
`fix-xunit-warnings.py` keeps only a subset of those (every file it keeps is
kept by the basename filter, but not conversely). -/
theorem c2_candidate_filters (files : List (List Char)) (f : List Char) :
    (f ∈ convertCandidates files ↔ f ∈ files ∧ decide (basenameL f ∈ skipNames) = false) ∧
    (f ∈ warningsCandidates files → f ∈ convertCandidates files) := by
  constructor
  · simp only [convertCandidates, List.mem_filter, Bool.not_eq_true']
  · intro hf
    simp only [warningsCandidates, List.mem_filter, Bool.not_eq_true'] at hf
    simp only [convertCandidates, List.mem_filter, Bool.not_eq_true']
    refine ⟨hf.1, ?_⟩
    have hno : skipNames.any (fun s => containsSub f s) = false := hf.2
    simp only [List.any_eq_false] at hno
    simp only [decide_eq_false_iff_not]
    intro hmem
    have hsub : containsSub f (basenameL f) = true :=
      containsSub_of_suffix (basenameL_suffix f)
    exact absurd hsub (by simpa using hno (basenameL f) hmem)

/-- C2 witness: for the file list `["/d/Tests1.cs", "/d/TestSetup.cs"]`,
`/d/Tests1.cs` is kept by both filters and its base name is outside the
exclusion set. -/
theorem c2_candidate_filters_witness :
    lch "/d/Tests1.cs" ∈ convertCandidates [lch "/d/Tests1.cs", lch "/d/TestSetup.cs"] ∧
    lch "/d/Tests1.cs" ∈ [lch "/d/Tests1.cs", lch "/d/TestSetup.cs"] ∧
    decide (basenameL (lch "/d/Tests1.cs") ∈ skipNames) = false := by
  refine ⟨?_, by decide, by decide⟩
  exact (c2_candidate_filters [lch "/d/Tests1.cs", lch "/d/TestSetup.cs"]
    (lch "/d/Tests1.cs")).1.mpr ⟨by decide, by decide⟩

/-! ## Lemmas about the substitution engine -/

theorem mrun_suffix : ∀ (r : RE) (s : List Char) (g : Caps) (pr : List Char × Caps),
    pr ∈ mrun r s g → pr.1 <:+ s := by
  intro r
  induction r with
  | eps =>
    intro s g pr hpr
    simp only [mrun, List.mem_singleton] at hpr
    subst hpr
    exact List.suffix_refl s
  | str t =>
    intro s g pr hpr
    simp only [mrun] at hpr
    by_cases hp : t.isPrefixOf s = true
    · rw [if_pos hp] at hpr
      simp only [List.mem_singleton] at hpr
      subst hpr
      exact List.drop_suffix _ _
    · rw [if_neg hp] at hpr
      simp at hpr
  | cls c =>
    intro s g pr hpr
    cases s with
    | nil => simp [mrun] at hpr
    | cons a t =>
      simp only [mrun] at hpr
      by_cases hm : ccMatch c a = true
      · rw [if_pos hm] at hpr
        simp only [List.mem_singleton] at hpr
        subst hpr
        exact List.suffix_cons a t
      · rw [if_neg hm] at hpr
        simp at hpr
  | star c =>
    intro s g pr hpr
    simp only [mrun, ccSplits, List.mem_map, List.mem_range] at hpr
    obtain ⟨x, ⟨i, _, hi⟩, hk⟩ := hpr
    rw [← hk]
    show x <:+ s
    rw [← hi]
    exact List.drop_suffix _ _
  | seq a b iha ihb =>
    intro s g pr hpr
    simp only [mrun, List.mem_flatMap] at hpr
    obtain ⟨q, hq, hpr2⟩ := hpr
    exact (ihb q.1 q.2 pr hpr2).trans (iha s g q hq)
  | alt a b iha ihb =>
    intro s g pr hpr
    simp only [mrun, List.mem_append] at hpr
    rcases hpr with h | h
    · exact iha s g pr h
    · exact ihb s g pr h
  | group n a iha =>
    intro s g pr hpr
    simp only [mrun, List.mem_map] at hpr
    obtain ⟨q, hq, hpr2⟩ := hpr
    rw [← hpr2]
    exact iha s g q hq

theorem neverEmpty_str {t : List Char} (ht : t ≠ []) : NeverEmpty (RE.str t) := by
  intro s g pr hpr
  simp only [mrun] at hpr
  by_cases hp : t.isPrefixOf s = true
  · rw [if_pos hp] at hpr
    simp only [List.mem_singleton] at hpr
    subst hpr
    have hle : t.length ≤ s.length := (List.isPrefixOf_iff_prefix.mp hp).length_le
    have ht0 : 0 < t.length := List.length_pos.mpr ht
    simp only [List.length_drop]
    exact Nat.sub_lt (Nat.lt_of_lt_of_le ht0 hle) ht0
  · rw [if_neg hp] at hpr
    simp at hpr

theorem resubGo_singlePass : ∀ (fuel : Nat) (p : RE) (f : List Char → Caps → List Char)
    (s : List Char), s.length < fuel → NeverEmpty p →
    SinglePassSpec p f s (resubGo fuel p f s) := by
  intro fuel
  induction fuel with
  | zero => intro p f s hs; exact absurd hs (Nat.not_lt_zero _)
  | succ fuel ih =>
    intro p f s hs hne
    cases s with
    | nil => exact SinglePassSpec.nil
    | cons c cs =>
      cases h : mrun p (c :: cs) [] with
      | nil =>
        have : resubGo (fuel + 1) p f (c :: cs) = c :: resubGo fuel p f cs := by
          simp only [resubGo, h]
        rw [this]
        exact SinglePassSpec.skip c cs _ h
          (ih p f cs (Nat.lt_of_succ_lt_succ hs) hne)
      | cons pr0 tail1 =>
        obtain ⟨rest, gr⟩ := pr0
        have hlt : rest.length < (c :: cs).length :=
          hne (c :: cs) [] (rest, gr) (h ▸ List.mem_cons_self _ _)
        have hsuf : rest <:+ (c :: cs) :=
          mrun_suffix p (c :: cs) [] (rest, gr) (h ▸ List.mem_cons_self _ _)
        obtain ⟨u, hu⟩ := hsuf
        have hune : u ≠ [] := by
          intro h0
          rw [h0, List.nil_append] at hu
          rw [hu] at hlt
          exact Nat.lt_irrefl _ hlt
        have hm : (c :: cs).take ((c :: cs).length - rest.length) = u := by
          rw [← hu, List.length_append, Nat.add_sub_cancel]
          exact List.take_left u rest
        have hred : resubGo (fuel + 1) p f (c :: cs) =
            f ((c :: cs).take ((c :: cs).length - rest.length)) gr ++ resubGo fuel p f rest := by
          simp only [resubGo, h]
          rw [if_pos hlt]
        rw [hred, hm, ← hu]
        exact SinglePassSpec.repl u rest gr tail1 (resubGo fuel p f rest) hune
          (by rw [hu]; exact h)
          (ih p f rest (Nat.lt_of_lt_of_le hlt (Nat.lt_succ_iff.mp hs)) hne)

/-- C7: for every rule pattern that cannot match the empty string (true of
every pattern in the scripts, each of which begins with literal text) and
every buffer, one `re.sub` pass replaces exactly the non-overlapping leftmost
matches: the output decomposes into skipped characters at which the pattern
has no match and replaced leftmost matches, the scan resumes after each
match, and replacement text is emitted verbatim without being rescanned
(single pass, not applied to fixed point). -/
theorem c7_single_pass (p : RE) (f : List Char → Caps → List Char) (s : List Char)
    (hne : NeverEmpty p) : SinglePassSpec p f s (resubF p f s) :=
  resubGo_singlePass (s.length + 1) p f s (Nat.lt_succ_self _) hne

/-- C7 witness: the `[Test]` rule on the buffer `a[Test][Test]b` — both
occurrences are replaced in one pass, and the pass satisfies the single-pass
leftmost decomposition. -/
theorem c7_single_pass_witness :
    resub (rlit "[Test]") [tl "[Fact]"] (lch "a[Test][Test]b") = lch "a[Fact][Fact]b" ∧
    SinglePassSpec (rlit "[Test]") (fun _ g => applyTmpl [tl "[Fact]"] g)
      (lch "a[Test][Test]b")
      (resubF (rlit "[Test]") (fun _ g => applyTmpl [tl "[Fact]"] g) (lch "a[Test][Test]b")) :=
  ⟨by decide, c7_single_pass (rlit "[Test]") (fun _ g => applyTmpl [tl "[Fact]"] g)
    (lch "a[Test][Test]b") (neverEmpty_str (by decide))⟩

/-! ## Lemmas about the file-system model and batch loop -/

theorem lookup_setAssoc_ne {l : List (String × List Char)} {p q : String} (hpq : p ≠ q)
    (c : List Char) : List.lookup p (setAssoc l q c) = List.lookup p l := by
  have hb : (p == q) = false := by simpa using hpq
  induction l with
  | nil => simp [setAssoc, List.lookup, hb]
  | cons e t ih =>
    obtain ⟨a, d⟩ := e
    by_cases haq : a = q
    · subst haq
      simp [setAssoc, List.lookup, hb]
    · simp only [setAssoc, if_neg haq, List.lookup]
      by_cases hpa : (p == a) = true
      · simp [hpa]
      · have hpa' : (p == a) = false := eq_false_of_ne_true hpa
        simp [hpa', ih]

theorem lookup_setAssoc_self (l : List (String × List Char)) (p : String) (c : List Char) :
    List.lookup p (setAssoc l p c) = some c := by
  induction l with
  | nil => simp [setAssoc, List.lookup]
  | cons e t ih =>
    obtain ⟨a, d⟩ := e
    by_cases haq : a = p
    · subst haq
      simp [setAssoc, List.lookup]
    · have hpa : (p == a) = false := by simpa using fun h => haq (Eq.symm h)
      simp [setAssoc, haq, List.lookup, hpa, ih]

theorem convertStep_other {fs : FS} {q : String} {fs1 : FS} {r : Report}
    (h : convertFileStep fs q = .ok (fs1, r)) {p : String} (hpq : p ≠ q) :
    readFS fs1 p = readFS fs p := by
  unfold convertFileStep at h
  cases hread : readFS fs q with
  | none => rw [hread] at h; cases h
  | some c =>
    rw [hread] at h
    dsimp only at h
    by_cases hm : hasMarkersB c = true
    · rw [if_pos hm] at h
      unfold writeFS at h
      by_cases hro : fs.readOnly.contains q = true
      · rw [if_pos hro] at h; cases h
      · rw [if_neg hro] at h
        cases h
        exact lookup_setAssoc_ne hpq _
    · rw [if_neg hm] at h
      cases h
      rfl

theorem convertStep_readOnly {fs : FS} {q : String} {fs1 : FS} {r : Report}
    (h : convertFileStep fs q = .ok (fs1, r)) : fs1.readOnly = fs.readOnly := by
  unfold convertFileStep at h
  cases hread : readFS fs q with
  | none => rw [hread] at h; cases h
  | some c =>
    rw [hread] at h
    dsimp only at h
    by_cases hm : hasMarkersB c = true
    · rw [if_pos hm] at h
      unfold writeFS at h
      by_cases hro : fs.readOnly.contains q = true
      · rw [if_pos hro] at h; cases h
      · rw [if_neg hro] at h
        cases h
        rfl
    · rw [if_neg hm] at h
      cases h
      rfl

theorem runBatch_other_convert : ∀ (ps : List String) (fs : FS) (p : String), p ∉ ps →
    readFS (runBatch convertFileStep fs ps).1 p = readFS fs p := by
  intro ps
  induction ps with
  | nil => intro fs p _; rfl
  | cons q ps ih =>
    intro fs p hp
    have hpq : p ≠ q := fun h => hp (h ▸ List.mem_cons_self q ps)
    have hps : p ∉ ps := fun h => hp (List.mem_cons_of_mem q h)
    cases hstep : convertFileStep fs q with
    | ok pr =>
      obtain ⟨fs1, r⟩ := pr
      simp only [runBatch, hstep]
      rw [ih fs1 p hps]
      exact convertStep_other hstep hpq
    | error e =>
      simp only [runBatch, hstep]
      exact ih fs p hps

theorem runBatch_local : ∀ (ps : List String) (fs : FS) (p : String), ps.Nodup → p ∈ ps →
    readFS (runBatch convertFileStep fs ps).1 p
      = convertLocal (fs.readOnly.contains p) (readFS fs p) := by
  intro ps
  induction ps with
  | nil => intro fs p _ hp; simp at hp
  | cons q ps ih =>
    intro fs p hnd hp
    have hqps : q ∉ ps := (List.nodup_cons.mp hnd).1
    have hnd' : ps.Nodup := (List.nodup_cons.mp hnd).2
    by_cases hpq : p = q
    · subst hpq
      cases hread : readFS fs p with
      | none =>
        have hstep : convertFileStep fs p = .error .ioError := by
          unfold convertFileStep
          rw [hread]
        simp only [runBatch, hstep]
        rw [runBatch_other_convert ps fs p hqps, hread]
        rfl
      | some c =>
        by_cases hm : hasMarkersB c = true
        · by_cases hro : fs.readOnly.contains p = true
          · have hstep : convertFileStep fs p = .error .ioError := by
              unfold convertFileStep
              rw [hread]
              dsimp only
              rw [if_pos hm]
              unfold writeFS
              rw [if_pos hro]
            simp only [runBatch, hstep]
            rw [runBatch_other_convert ps fs p hqps, hread]
            simp only [convertLocal, hm, if_true, hro]
          · have hstep : convertFileStep fs p =
                .ok (⟨setAssoc fs.files p (convertTransform c), fs.readOnly,
                  fs.log ++ [(p, convertTransform c)]⟩, .convertedR) := by
              unfold convertFileStep
              rw [hread]
              dsimp only
              rw [if_pos hm]
              unfold writeFS
              rw [if_neg hro]
            simp only [runBatch, hstep]
            rw [runBatch_other_convert ps _ p hqps]
            show List.lookup p (setAssoc fs.files p (convertTransform c)) = _
            rw [lookup_setAssoc_self]
            simp only [convertLocal, hm, if_true]
            rw [if_neg hro]
        · have hstep : convertFileStep fs p = .ok (fs, .skippedR) := by
            unfold convertFileStep
            rw [hread]
            dsimp only
            rw [if_neg hm]
          simp only [runBatch, hstep]
          rw [runBatch_other_convert ps fs p hqps, hread]
          simp only [convertLocal]
          rw [if_neg (by simpa using hm)]
    · have hp' : p ∈ ps := by
        rcases List.mem_cons.mp hp with h | h
        · exact absurd h hpq
        · exact h
      cases hstep : convertFileStep fs q with
      | ok pr =>
        obtain ⟨fs1, r⟩ := pr
        simp only [runBatch, hstep]
        rw [ih fs1 p hnd' hp', convertStep_other hstep hpq, convertStep_readOnly hstep]
      | error e =>
        simp only [runBatch, hstep]
        exact ih fs p hnd' hp'

theorem fixFileStep_eq_guard : fixFileStep = diffGuardStep fixFinalTransform := by
  funext fs p
  unfold fixFileStep diffGuardStep
  rfl

theorem fixWarningsStep_eq_guard : fixWarningsStep = diffGuardStep fixWarningsTransform := by
  funext fs p
  unfold fixWarningsStep diffGuardStep
  rfl

theorem guardStep_other {tf : List Char → List Char} {fs : FS} {q : String} {fs1 : FS}
    {r : Report} (h : diffGuardStep tf fs q = .ok (fs1, r)) {p : String} (hpq : p ≠ q) :
    readFS fs1 p = readFS fs p := by
  unfold diffGuardStep at h
  cases hread : readFS fs q with
  | none => rw [hread] at h; cases h
  | some c =>
    rw [hread] at h
    dsimp only at h
    by_cases hc : tf c = c
    · rw [if_pos hc] at h
      cases h
      rfl
    · rw [if_neg hc] at h
      unfold writeFS at h
      by_cases hro : fs.readOnly.contains q = true
      · rw [if_pos hro] at h; cases h
      · rw [if_neg hro] at h
        cases h
        exact lookup_setAssoc_ne hpq _

theorem guardStep_readOnly {tf : List Char → List Char} {fs : FS} {q : String} {fs1 : FS}
    {r : Report} (h : diffGuardStep tf fs q = .ok (fs1, r)) :
    fs1.readOnly = fs.readOnly := by
  unfold diffGuardStep at h
  cases hread : readFS fs q with
  | none => rw [hread] at h; cases h
  | some c =>
    rw [hread] at h
    dsimp only at h
    by_cases hc : tf c = c
    · rw [if_pos hc] at h
      cases h
      rfl
    · rw [if_neg hc] at h
      unfold writeFS at h
      by_cases hro : fs.readOnly.contains q = true
      · rw [if_pos hro] at h; cases h
      · rw [if_neg hro] at h
        cases h
        rfl

theorem runBatch_other_guard (tf : List Char → List Char) :
    ∀ (ps : List String) (fs : FS) (p : String), p ∉ ps →
    readFS (runBatch (diffGuardStep tf) fs ps).1 p = readFS fs p := by
  intro ps
  induction ps with
  | nil => intro fs p _; rfl
  | cons q ps ih =>
    intro fs p hp
    have hpq : p ≠ q := fun h => hp (h ▸ List.mem_cons_self q ps)
    have hps : p ∉ ps := fun h => hp (List.mem_cons_of_mem q h)
    cases hstep : diffGuardStep tf fs q with
    | ok pr =>
      obtain ⟨fs1, r⟩ := pr
      simp only [runBatch, hstep]
      rw [ih fs1 p hps]
      exact guardStep_other hstep hpq
    | error e =>
      simp only [runBatch, hstep]
      exact ih fs p hps

theorem runBatch_local_guard (tf : List Char → List Char) :
    ∀ (ps : List String) (fs : FS) (p : String), ps.Nodup → p ∈ ps →
    readFS (runBatch (diffGuardStep tf) fs ps).1 p
      = guardLocal tf (fs.readOnly.contains p) (readFS fs p) := by
  intro ps
  induction ps with
  | nil => intro fs p _ hp; simp at hp
  | cons q ps ih =>
    intro fs p hnd hp
    have hqps : q ∉ ps := (List.nodup_cons.mp hnd).1
    have hnd' : ps.Nodup := (List.nodup_cons.mp hnd).2
    by_cases hpq : p = q
    · subst hpq
      cases hread : readFS fs p with
      | none =>
        have hstep : diffGuardStep tf fs p = .error .ioError := by
          unfold diffGuardStep
          rw [hread]
        simp only [runBatch, hstep]
        rw [runBatch_other_guard tf ps fs p hqps, hread]
        rfl
      | some c =>
        by_cases hc : tf c = c
        · have hstep : diffGuardStep tf fs p = .ok (fs, .noChangeR) := by
            unfold diffGuardStep
            rw [hread]
            dsimp only
            rw [if_pos hc]
          simp only [runBatch, hstep]
          rw [runBatch_other_guard tf ps fs p hqps, hread]
          simp only [guardLocal]
          rw [if_pos hc]
        · by_cases hro : fs.readOnly.contains p = true
          · have hstep : diffGuardStep tf fs p = .error .ioError := by
              unfold diffGuardStep
              rw [hread]
              dsimp only
              rw [if_neg hc]
              unfold writeFS
              rw [if_pos hro]
            simp only [runBatch, hstep]
            rw [runBatch_other_guard tf ps fs p hqps, hread]
            simp only [guardLocal]
            rw [if_neg hc, if_pos hro]
          · have hstep : diffGuardStep tf fs p =
                .ok (⟨setAssoc fs.files p (tf c), fs.readOnly,
                  fs.log ++ [(p, tf c)]⟩, .fixedR) := by
              unfold diffGuardStep
              rw [hread]
              dsimp only
              rw [if_neg hc]
              unfold writeFS
              rw [if_neg hro]
            simp only [runBatch, hstep]
            rw [runBatch_other_guard tf ps _ p hqps]
            show List.lookup p (setAssoc fs.files p (tf c)) = _
            rw [lookup_setAssoc_self]
            simp only [guardLocal]
            rw [if_neg hc, if_neg hro]
    · have hp' : p ∈ ps := by
        rcases List.mem_cons.mp hp with h | h
        · exact absurd h hpq
        · exact h
      cases hstep : diffGuardStep tf fs q with
      | ok pr =>
        obtain ⟨fs1, r⟩ := pr
        simp only [runBatch, hstep]
        rw [ih fs1 p hnd' hp', guardStep_other hstep hpq, guardStep_readOnly hstep]
      | error e =>
        simp only [runBatch, hstep]
        exact ih fs p hnd' hp'

theorem runBatch_fixRemaining_fs : ∀ (ps : List String) (fs : FS),
    (runBatch fixRemainingStep fs ps).1 = fs := by
  intro ps
  induction ps with
  | nil => intro fs; rfl
  | cons q ps ih =>
    intro fs
    obtain ⟨e, he⟩ : ∃ e, fixRemainingStep fs q = .error e := by
      unfold fixRemainingStep
      cases readFS fs q with
      | none => exact ⟨.ioError, rfl⟩
      | some c => exact ⟨.reError, rfl⟩
    simp only [runBatch, he]
    exact ih fs

/-- C8: each of the four scripts is deterministic and per-file independent —
for the conversion (`convert_file`), the final-assertion fixer (`fix_file`),
the warning fixer (`fix_xunit_warnings`), and the remaining-issue fixer,
batch runs on two file systems agreeing on a file's content and writability
produce identical final content for that file, regardless of the other
candidate files or their order: each file's result is a function of its own
initial content and writability only, with the rules applied in the one
fixed sequence encoded in the respective pure transformation. -/
theorem c8_deterministic (fs1 fs2 : FS) (ps1 ps2 : List String) (p : String)
    (h1 : ps1.Nodup) (h2 : ps2.Nodup) (hp1 : p ∈ ps1) (hp2 : p ∈ ps2)
    (hc : readFS fs1 p = readFS fs2 p)
    (hr : fs1.readOnly.contains p = fs2.readOnly.contains p) :
    readFS (runBatch convertFileStep fs1 ps1).1 p
      = readFS (runBatch convertFileStep fs2 ps2).1 p ∧
    readFS (runBatch fixFileStep fs1 ps1).1 p
      = readFS (runBatch fixFileStep fs2 ps2).1 p ∧
    readFS (runBatch fixWarningsStep fs1 ps1).1 p
      = readFS (runBatch fixWarningsStep fs2 ps2).1 p ∧
    readFS (runBatch fixRemainingStep fs1 ps1).1 p
      = readFS (runBatch fixRemainingStep fs2 ps2).1 p := by
  refine ⟨?_, ?_, ?_, ?_⟩
  · rw [runBatch_local ps1 fs1 p h1 hp1, runBatch_local ps2 fs2 p h2 hp2, hc, hr]
  · rw [fixFileStep_eq_guard, runBatch_local_guard _ ps1 fs1 p h1 hp1,
      runBatch_local_guard _ ps2 fs2 p h2 hp2, hc, hr]
  · rw [fixWarningsStep_eq_guard, runBatch_local_guard _ ps1 fs1 p h1 hp1,
      runBatch_local_guard _ ps2 fs2 p h2 hp2, hc, hr]
  · rw [runBatch_fixRemaining_fs ps1 fs1, runBatch_fixRemaining_fs ps2 fs2, hc]

/-- C8 witness: two runs of each script over different batches agreeing on
`/d/P.cs` give it identical final content. -/
theorem c8_deterministic_witness :
    (readFS (runBatch convertFileStep
        ⟨[("/d/A.cs", lch "x"), ("/d/P.cs", lch "[Test]y")], [], []⟩
        ["/d/A.cs", "/d/P.cs"]).1 "/d/P.cs"
      = readFS (runBatch convertFileStep
        ⟨[("/d/P.cs", lch "[Test]y")], [], []⟩ ["/d/P.cs"]).1 "/d/P.cs") ∧
    (readFS (runBatch fixFileStep
        ⟨[("/d/A.cs", lch "x"), ("/d/P.cs", lch "[Test]y")], [], []⟩
        ["/d/A.cs", "/d/P.cs"]).1 "/d/P.cs"
      = readFS (runBatch fixFileStep
        ⟨[("/d/P.cs", lch "[Test]y")], [], []⟩ ["/d/P.cs"]).1 "/d/P.cs") ∧
    (readFS (runBatch fixWarningsStep
        ⟨[("/d/A.cs", lch "x"), ("/d/P.cs", lch "[Test]y")], [], []⟩
        ["/d/A.cs", "/d/P.cs"]).1 "/d/P.cs"
      = readFS (runBatch fixWarningsStep
        ⟨[("/d/P.cs", lch "[Test]y")], [], []⟩ ["/d/P.cs"]).1 "/d/P.cs") ∧
    (readFS (runBatch fixRemainingStep
        ⟨[("/d/A.cs", lch "x"), ("/d/P.cs", lch "[Test]y")], [], []⟩
        ["/d/A.cs", "/d/P.cs"]).1 "/d/P.cs"
      = readFS (runBatch fixRemainingStep
        ⟨[("/d/P.cs", lch "[Test]y")], [], []⟩ ["/d/P.cs"]).1 "/d/P.cs") :=
  c8_deterministic ⟨[("/d/A.cs", lch "x"), ("/d/P.cs", lch "[Test]y")], [], []⟩
    ⟨[("/d/P.cs", lch "[Test]y")], [], []⟩ ["/d/A.cs", "/d/P.cs"] ["/d/P.cs"] "/d/P.cs"
    (by decide) (by decide) (by decide) (by decide) (by decide) (by decide)

/-- C5: a candidate file whose content has none of the trigger markers
`[Test]`, `await Assert.That`, `TUnit` keeps its content on disk across the
whole batch run, and the run reports it as skipped. -/
theorem c5_no_marker_skip : ∀ (ps : List String) (fs : FS) (p : String) (c : List Char),
    readFS fs p = some c → hasMarkersB c = false →
    readFS (runBatch convertFileStep fs ps).1 p = some c ∧
    (p ∈ ps → (p, Report.skippedR) ∈ (runBatch convertFileStep fs ps).2) := by
  intro ps
  induction ps with
  | nil =>
    intro fs p c hread hm
    exact ⟨hread, by intro h; simp at h⟩
  | cons q ps ih =>
    intro fs p c hread hm
    by_cases hpq : q = p
    · subst hpq
      have hstep : convertFileStep fs q = .ok (fs, .skippedR) := by
        unfold convertFileStep
        rw [hread]
        dsimp only
        rw [if_neg (by simp [hm])]
      simp only [runBatch, hstep]
      obtain ⟨ha, _⟩ := ih fs q c hread hm
      exact ⟨ha, fun _ => List.mem_cons_self _ _⟩
    · cases hstep : convertFileStep fs q with
      | ok pr =>
        obtain ⟨fs1, r⟩ := pr
        have hread1 : readFS fs1 p = some c := by
          rw [convertStep_other hstep (fun h => hpq h.symm)]
          exact hread
        obtain ⟨ha, hb⟩ := ih fs1 p c hread1 hm
        simp only [runBatch, hstep]
        refine ⟨ha, fun hmem => ?_⟩
        rcases List.mem_cons.mp hmem with h | h
        · exact absurd h.symm hpq
        · exact List.mem_cons_of_mem _ (hb h)
      | error e =>
        obtain ⟨ha, hb⟩ := ih fs p c hread hm
        simp only [runBatch, hstep]
        refine ⟨ha, fun hmem => ?_⟩
        rcases List.mem_cons.mp hmem with h | h
        · exact absurd h.symm hpq
        · exact List.mem_cons_of_mem _ (hb h)

/-- C5 witness: a file containing no trigger marker is untouched by a batch
over two files and reported as skipped. -/
theorem c5_no_marker_skip_witness :
    readFS (runBatch convertFileStep
      ⟨[("/d/N.cs", lch "// plain"), ("/d/Q.cs", lch "[Test]z")], [], []⟩
      ["/d/N.cs", "/d/Q.cs"]).1 "/d/N.cs" = some (lch "// plain") ∧
    ("/d/N.cs" ∈ ["/d/N.cs", "/d/Q.cs"] →
      ("/d/N.cs", Report.skippedR) ∈ (runBatch convertFileStep
        ⟨[("/d/N.cs", lch "// plain"), ("/d/Q.cs", lch "[Test]z")], [], []⟩
        ["/d/N.cs", "/d/Q.cs"]).2) :=
  c5_no_marker_skip ["/d/N.cs", "/d/Q.cs"]
    ⟨[("/d/N.cs", lch "// plain"), ("/d/Q.cs", lch "[Test]z")], [], []⟩
    "/d/N.cs" (lch "// plain") (by decide) (by decide)

/-- C3: if processing a candidate file raises an error, the error is caught
and reported for that file only, the file is skipped without retry (the file
system it would have modified is passed on unchanged and the file gets
exactly its one error report), and every remaining candidate in the batch is
still processed. -/
theorem c3_error_continue (step : FS → String → Except PyErr (FS × Report)) (fs : FS)
    (ps1 : List String) (p : String) (ps2 : List String) (e : PyErr)
    (h : step (runBatch step fs ps1).1 p = .error e) :
    runBatch step fs (ps1 ++ p :: ps2) =
      ((runBatch step (runBatch step fs ps1).1 ps2).1,
        (runBatch step fs ps1).2 ++ (p, Report.errorR e)
          :: (runBatch step (runBatch step fs ps1).1 ps2).2) := by
  induction ps1 generalizing fs with
  | nil =>
    have h' : step fs p = Except.error e := by simpa only [runBatch] using h
    simp only [List.nil_append, runBatch, h']
  | cons q ps1 ih =>
    cases hstep : step fs q with
    | ok pr =>
      obtain ⟨fs1, r⟩ := pr
      have h1 : step (runBatch step fs1 ps1).1 p = .error e := by
        simpa only [runBatch, hstep] using h
      simp only [List.cons_append, List.append_eq, runBatch, hstep, ih fs1 h1]
    | error e2 =>
      have h1 : step (runBatch step fs ps1).1 p = .error e := by
        simpa only [runBatch, hstep] using h
      simp only [List.cons_append, List.append_eq, runBatch, hstep, ih fs h1]

/-- C3 witness: in a batch where reading the first file fails (it is absent
from the file system), the failure is reported for that file and the
remaining file is still processed. -/
theorem c3_error_continue_witness :
    convertFileStep (runBatch convertFileStep ⟨[("/d/B.cs", lch "hi")], [], []⟩ []).1
      "/d/missing.cs" = .error .ioError ∧
    runBatch convertFileStep ⟨[("/d/B.cs", lch "hi")], [], []⟩
        ([] ++ "/d/missing.cs" :: ["/d/B.cs"]) =
      ((runBatch convertFileStep
          (runBatch convertFileStep ⟨[("/d/B.cs", lch "hi")], [], []⟩ []).1 ["/d/B.cs"]).1,
        (runBatch convertFileStep ⟨[("/d/B.cs", lch "hi")], [], []⟩ []).2 ++
          ("/d/missing.cs", Report.errorR .ioError)
            :: (runBatch convertFileStep
                (runBatch convertFileStep ⟨[("/d/B.cs", lch "hi")], [], []⟩ []).1
                ["/d/B.cs"]).2) :=
  ⟨by decide,
    c3_error_continue convertFileStep ⟨[("/d/B.cs", lch "hi")], [], []⟩ []
      "/d/missing.cs" ["/d/B.cs"] .ioError (by decide)⟩

/-- C1 counterexample: on the file content `// TUnit` the trigger-marker
check passes but the transformation is the identity, and `convert_file`
nevertheless performs a write (the write log gains an entry whose content
equals the original), refuting "written back only if the final transformed
content differs from the original". -/
theorem c1_counterexample :
    convertFileStep ⟨[("/d/T.cs", lch "// TUnit")], [], []⟩ "/d/T.cs"
      = .ok (⟨[("/d/T.cs", lch "// TUnit")], [],
          [("/d/T.cs", lch "// TUnit")]⟩, .convertedR) ∧
    convertTransform (lch "// TUnit") = lch "// TUnit" :=
  ⟨by decide, by decide⟩

/-- C1 (amended): every processed file is written at most once per
processing.  `fix-final-assertions.py` writes only when the transformed
content differs from the original and otherwise leaves the file system
untouched; `fix-remaining-xunit-issues.py` never reaches its write (its
fifth pattern raises `re.error`); `convert-tunit-to-xunit.py`, however,
writes whenever the trigger markers are present, even when the transformed
content equals the original (the written bytes then equal the original, so
the disk content is unchanged, but a write occurs). -/
theorem c1_write_discipline (fs : FS) (p : String) :
    (∀ fs1 r, fixFileStep fs p = .ok (fs1, r) →
      (fs1 = fs ∧ fs1.log = fs.log) ∨
      (∃ c, readFS fs p = some c ∧ fixFinalTransform c ≠ c ∧
        fs1.log = fs.log ++ [(p, fixFinalTransform c)])) ∧
    (∀ fs1 r, convertFileStep fs p = .ok (fs1, r) →
      (fs1 = fs ∧ fs1.log = fs.log) ∨
      (∃ c, readFS fs p = some c ∧ hasMarkersB c = true ∧
        fs1.log = fs.log ++ [(p, convertTransform c)])) ∧
    (∀ fs1 r, fixRemainingStep fs p ≠ .ok (fs1, r)) := by
  refine ⟨?_, ?_, ?_⟩
  · intro fs1 r h
    unfold fixFileStep at h
    cases hread : readFS fs p with
    | none => rw [hread] at h; cases h
    | some c =>
      rw [hread] at h
      dsimp only at h
      by_cases heq : fixFinalTransform c = c
      · rw [if_pos heq] at h
        cases h
        exact Or.inl ⟨rfl, rfl⟩
      · rw [if_neg heq] at h
        unfold writeFS at h
        by_cases hro : fs.readOnly.contains p = true
        · rw [if_pos hro] at h; cases h
        · rw [if_neg hro] at h
          cases h
          exact Or.inr ⟨c, rfl, heq, rfl⟩
  · intro fs1 r h
    unfold convertFileStep at h
    cases hread : readFS fs p with
    | none => rw [hread] at h; cases h
    | some c =>
      rw [hread] at h
      dsimp only at h
      by_cases hm : hasMarkersB c = true
      · rw [if_pos hm] at h
        unfold writeFS at h
        by_cases hro : fs.readOnly.contains p = true
        · rw [if_pos hro] at h; cases h
        · rw [if_neg hro] at h
          cases h
          exact Or.inr ⟨c, rfl, hm, rfl⟩
      · rw [if_neg hm] at h
        cases h
        exact Or.inl ⟨rfl, rfl⟩
  · intro fs1 r h
    unfold fixRemainingStep at h
    cases hread : readFS fs p with
    | none => rw [hread] at h; cases h
    | some c => rw [hread] at h; cases h

/-- C1 witness: on a file whose content the final-assertion fixer changes,
the write discipline instance yields the write branch (one write of the
changed content appended to the log). -/
theorem c1_write_discipline_witness :
    (⟨[("/d/W.cs", lch "Assert.StartsWith(y, x);")], [],
        [("/d/W.cs", lch "Assert.StartsWith(y, x);")]⟩ : FS) =
        ⟨[("/d/W.cs", lch "Assert.True(x.StartsWith(y));")], [], []⟩ ∧
      (⟨[("/d/W.cs", lch "Assert.StartsWith(y, x);")], [],
        [("/d/W.cs", lch "Assert.StartsWith(y, x);")]⟩ : FS).log = [] ∨
    (∃ c, readFS ⟨[("/d/W.cs", lch "Assert.True(x.StartsWith(y));")], [], []⟩ "/d/W.cs"
        = some c ∧ fixFinalTransform c ≠ c ∧
      (⟨[("/d/W.cs", lch "Assert.StartsWith(y, x);")], [],
        [("/d/W.cs", lch "Assert.StartsWith(y, x);")]⟩ : FS).log
        = [] ++ [("/d/W.cs", fixFinalTransform c)]) :=
  (c1_write_discipline ⟨[("/d/W.cs", lch "Assert.True(x.StartsWith(y));")], [], []⟩
    "/d/W.cs").1
    ⟨[("/d/W.cs", lch "Assert.StartsWith(y, x);")], [],
      [("/d/W.cs", lch "Assert.StartsWith(y, x);")]⟩
    .fixedR (by decide)

/-- C4 counterexample: `fix_xunit_warnings` is not idempotent — on
`Assert.Equal("a", "b");` the parameter-order rule swaps the two string
literals, and a second application swaps them back, changing the output of
the first application. -/
theorem c4_counterexample :
    fixWarningsTransform (lch "Assert.Equal(\"a\", \"b\");")
      = lch "Assert.Equal(\"b\", \"a\");" ∧
    fixWarningsTransform (fixWarningsTransform (lch "Assert.Equal(\"a\", \"b\");"))
      ≠ fixWarningsTransform (lch "Assert.Equal(\"a\", \"b\");") :=
  ⟨by decide, by decide⟩

/-- C4 (amended): the TUnit-to-xUnit conversion is idempotent on every file
whose content after the first run no longer contains a trigger marker — the
skip check makes the second run a no-op (no write, content unchanged); the
warning-fix scripts are not idempotent in general because the
`Assert.Equal(x, "literal")` parameter-order rule maps its own output back
when both arguments are string literals. -/
theorem c4_skip_idempotent (fs : FS) (p : String) (fs1 : FS) (r : Report) (c1 : List Char)
    (_h1 : convertFileStep fs p = .ok (fs1, r)) (h2 : readFS fs1 p = some c1)
    (h3 : hasMarkersB c1 = false) : convertFileStep fs1 p = .ok (fs1, .skippedR) := by
  unfold convertFileStep
  rw [h2]
  dsimp only
  rw [if_neg (by simp [h3])]

/-- C4 witness: after converting `[Test]x` the written content has no marker,
so a second run skips and leaves the file system unchanged. -/
theorem c4_skip_idempotent_witness :
    convertFileStep ⟨[("/d/I.cs", lch "using Xunit;\n[Fact]x")], [],
        [("/d/I.cs", lch "using Xunit;\n[Fact]x")]⟩ "/d/I.cs"
      = .ok (⟨[("/d/I.cs", lch "using Xunit;\n[Fact]x")], [],
        [("/d/I.cs", lch "using Xunit;\n[Fact]x")]⟩, .skippedR) :=
  c4_skip_idempotent ⟨[("/d/I.cs", lch "[Test]x")], [], []⟩ "/d/I.cs"
    ⟨[("/d/I.cs", lch "using Xunit;\n[Fact]x")], [],
      [("/d/I.cs", lch "using Xunit;\n[Fact]x")]⟩
    .convertedR (lch "using Xunit;\n[Fact]x") (by decide) (by decide) (by decide)

/-! ## Lemmas about the `using Xunit;` insertion -/

/-! ## Lemmas about line decompositions of a buffer -/

theorem splitNl_append_cons (a b : List Char) :
    splitNl (a ++ '\n' :: b) = splitNl a ++ splitNl b := by
  induction a with
  | nil =>
    show splitNl ('\n' :: b) = splitNl [] ++ splitNl b
    simp [splitNl]
  | cons c a ih =>
    by_cases hc : c = '\n'
    · subst hc
      show splitNl ('\n' :: (a ++ '\n' :: b)) = splitNl ('\n' :: a) ++ splitNl b
      simp [splitNl, ih]
    · show splitNl (c :: (a ++ '\n' :: b)) = splitNl (c :: a) ++ splitNl b
      simp only [splitNl, if_neg hc, ih]
      cases ha : splitNl a with
      | nil => exact absurd ha (splitNl_ne_nil a)
      | cons h t => simp

theorem splitNl_head_decomp : ∀ (t : List Char) (h : List Char) (tl : List (List Char)),
    splitNl t = h :: tl →
    (t = h ∧ tl = []) ∨ (∃ v, t = h ++ '\n' :: v ∧ tl = splitNl v) := by
  intro t
  induction t with
  | nil =>
    intro h tl he
    simp only [splitNl] at he
    injection he with h1 h2
    exact Or.inl ⟨h1, h2.symm⟩
  | cons c t ih =>
    intro h tl he
    by_cases hc : c = '\n'
    · subst hc
      simp only [splitNl, if_pos rfl] at he
      injection he with h1 h2
      right
      refine ⟨t, ?_, h2.symm⟩
      rw [← h1]
      rfl
    · simp only [splitNl, if_neg hc] at he
      cases ht : splitNl t with
      | nil => exact absurd ht (splitNl_ne_nil t)
      | cons h0 tl0 =>
        rw [ht] at he
        injection he with h1 h2
        rcases ih h0 tl0 ht with ⟨he1, he2⟩ | ⟨v, hv1, hv2⟩
        · left
          constructor
          · rw [← h1, he1]
          · rw [← h2, he2]
        · right
          refine ⟨v, ?_, by rw [← h2, hv2]⟩
          rw [← h1, hv1]
          rfl

theorem mem_splitNl_decomp_aux : ∀ (n : Nat) (s w : List Char), s.length ≤ n →
    w ∈ splitNl s →
    (∃ v, s = w ++ v ∧ endFlank v) ∨
    (∃ u v, s = u ++ '\n' :: w ++ v ∧ endFlank v) := by
  intro n
  induction n with
  | zero =>
    intro s w hlen hmem
    have hs : s = [] := List.length_eq_zero.mp (Nat.le_zero.mp hlen)
    subst hs
    simp only [splitNl, List.mem_singleton] at hmem
    subst hmem
    exact Or.inl ⟨[], rfl, Or.inl rfl⟩
  | succ n ih =>
    intro s w hlen hmem
    cases hsp : splitNl s with
    | nil => exact absurd hsp (splitNl_ne_nil s)
    | cons h tl =>
      rw [hsp] at hmem
      rcases List.mem_cons.mp hmem with hw | hw
      · subst hw
        rcases splitNl_head_decomp s w tl hsp with ⟨h1, _⟩ | ⟨v, hv1, _⟩
        · exact Or.inl ⟨[], by rw [h1]; simp, Or.inl rfl⟩
        · exact Or.inl ⟨'\n' :: v, hv1, Or.inr ⟨v, rfl⟩⟩
      · rcases splitNl_head_decomp s h tl hsp with ⟨_, h2⟩ | ⟨v, hv1, hv2⟩
        · rw [h2] at hw
          simp at hw
        · rw [hv2] at hw
          have hvlen : v.length ≤ n := by
            rw [hv1] at hlen
            simp only [List.length_append, List.length_cons] at hlen
            omega
          rcases ih v w hvlen hw with ⟨v2, hv, hef⟩ | ⟨u, v2, hv, hef⟩
          · exact Or.inr ⟨h, v2, by rw [hv1, hv]; simp, hef⟩
          · exact Or.inr ⟨h ++ '\n' :: u, v2, by rw [hv1, hv]; simp, hef⟩

theorem mem_splitNl_decomp {s w : List Char} (h : w ∈ splitNl s) :
    (∃ v, s = w ++ v ∧ endFlank v) ∨
    (∃ u v, s = u ++ '\n' :: w ++ v ∧ endFlank v) :=
  mem_splitNl_decomp_aux s.length s w (Nat.le_refl _) h

theorem mem_splitNl_start {w v : List Char} (hnl : '\n' ∉ w) (hef : endFlank v) :
    w ∈ splitNl (w ++ v) := by
  rcases hef with rfl | ⟨v2, rfl⟩
  · rw [List.append_nil, splitNl_no_nl hnl]
    exact List.mem_singleton.mpr rfl
  · rw [splitNl_append_cons, splitNl_no_nl hnl]
    exact List.mem_append.mpr (Or.inl (List.mem_singleton.mpr rfl))

theorem mem_splitNl_interior {u w v : List Char} (hnl : '\n' ∉ w) (hef : endFlank v) :
    w ∈ splitNl (u ++ '\n' :: w ++ v) := by
  have he : u ++ '\n' :: w ++ v = u ++ '\n' :: (w ++ v) := by simp
  rw [he, splitNl_append_cons]
  exact List.mem_append.mpr (Or.inr (mem_splitNl_start hnl hef))

theorem containsSub_of_infix {h n : List Char} (hi : n <:+: h) : containsSub h n = true := by
  obtain ⟨u, v, rfl⟩ := hi
  induction u with
  | nil =>
    exact containsSub_of_prefix ⟨v, by simp⟩
  | cons c u ih =>
    show containsSub (c :: (u ++ n ++ v)) n = true
    simp only [containsSub, ih, Bool.or_true]

theorem append_block_cases {α : Type} (A B t blk t2 : List α)
    (h : A ++ B = t ++ blk ++ t2) :
    (∃ y, A = t ++ blk ++ y ∧ t2 = y ++ B) ∨
    (∃ t5, t = A ++ t5 ∧ B = t5 ++ blk ++ t2) ∨
    (∃ y z, blk = y ++ z ∧ y ≠ [] ∧ z ≠ [] ∧ A = t ++ y ∧ B = z ++ t2) := by
  rw [List.append_assoc] at h
  rcases List.append_eq_append_iff.mp h with ⟨a1, ha1, ha2⟩ | ⟨c1, hc1, hc2⟩
  · refine Or.inr (Or.inl ⟨a1, ha1, ?_⟩)
    rw [ha2, List.append_assoc]
  · rcases List.append_eq_append_iff.mp hc2 with ⟨a2, hb1, hb2⟩ | ⟨c2, hd1, hd2⟩
    · refine Or.inl ⟨a2, ?_, hb2⟩
      rw [hc1, hb1, List.append_assoc]
    · by_cases hc1nil : c1 = []
      · subst hc1nil
        rw [List.append_nil] at hc1
        simp only [List.nil_append] at hd1
        refine Or.inr (Or.inl ⟨[], by rw [hc1, List.append_nil], ?_⟩)
        rw [hd2, hd1]
        simp
      · by_cases hc2nil : c2 = []
        · subst hc2nil
          rw [List.append_nil] at hd1
          refine Or.inl ⟨[], ?_, ?_⟩
          · rw [hc1, hd1, List.append_nil]
          · rw [hd2]
            simp
        · exact Or.inr (Or.inr ⟨c1, c2, hd1, hc1nil, hc2nil, hc1, hd2⟩)

/-! ## Lemmas about safe literals and rule matches -/

theorem contains_iff_mem_ch {l : List Char} {c : Char} : l.contains c = true ↔ c ∈ l := by
  show l.elem c = true ↔ c ∈ l
  exact List.elem_iff

theorem litSafe_ne_nil {w l : List Char} (h : litSafe w l = true) : l ≠ [] := by
  cases l with
  | nil => simp [litSafe] at h
  | cons c t => simp

theorem litSafe_no_nl {w l : List Char} (h : litSafe w l = true) : '\n' ∉ l := by
  cases l with
  | nil => simp [litSafe] at h
  | cons c t =>
    simp only [litSafe, Bool.and_eq_true, Bool.not_eq_true'] at h
    intro hmem
    have h2 := contains_iff_mem_ch.mpr hmem
    rw [h.1] at h2
    exact Bool.false_ne_true h2

theorem litSafe_head {w l : List Char} (h : litSafe w l = true) {c : Char} {t : List Char}
    (he : l = c :: t) : c ∉ '\n' :: w := by
  subst he
  simp only [litSafe, Bool.and_eq_true, Bool.not_eq_true'] at h
  intro hmem
  have h2 := contains_iff_mem_ch.mpr hmem
  rw [h.2] at h2
  exact Bool.false_ne_true h2

theorem blk_chars {w : List Char} {ch : Char} (h : ch ∈ '\n' :: w ++ ['\n']) :
    ch ∈ '\n' :: w := by
  rcases List.mem_append.mp h with h2 | h2
  · exact h2
  · rw [List.mem_singleton.mp h2]
    exact List.mem_cons_self _ _

theorem lit_contra_contain {w lit t y : List Char} (hs : litSafe w lit = true)
    (h : lit = t ++ ('\n' :: w ++ ['\n']) ++ y) : False := by
  apply litSafe_no_nl hs
  rw [h]
  simp

theorem lit_contra_prefix {w lit t y z : List Char} (hs : litSafe w lit = true)
    (hy : y ≠ []) (hblk : '\n' :: w ++ ['\n'] = y ++ z) (h : lit = t ++ y) : False := by
  cases y with
  | nil => exact hy rfl
  | cons yh yt =>
    have h2 := hblk
    simp only [List.cons_append] at h2
    have hyh : yh = '\n' := by
      injection h2 with h3 _
      exact h3.symm
    subst hyh
    apply litSafe_no_nl hs
    rw [h]
    simp

theorem lit_contra_suffix {w lit y z t2 B2 : List Char} (hs : litSafe w lit = true)
    (hz : z ≠ []) (hblk : '\n' :: w ++ ['\n'] = y ++ z) (h : lit ++ B2 = z ++ t2) : False := by
  cases z with
  | nil => exact hz rfl
  | cons zh zt =>
    have hzh : zh ∈ '\n' :: w := by
      apply blk_chars
      rw [hblk]
      simp
    cases lit with
    | nil => exact litSafe_ne_nil hs rfl
    | cons lh lt =>
      have hlz : lh = zh := by
        have h2 := h
        simp only [List.cons_append, List.cons.injEq] at h2
        exact h2.1
      refine litSafe_head hs rfl ?_
      rw [hlz]
      exact hzh

theorem lit_end_in_w {w t0 t1 u m A lit : List Char} (hs : litSafe w lit = true)
    (hm : m = A ++ lit) (hm2 : m = u ++ '\n' :: t0) (hw : w = t0 ++ t1) : False := by
  have h : A ++ lit = u ++ '\n' :: t0 := by rw [← hm, hm2]
  rcases List.append_eq_append_iff.mp h with ⟨a1, _, ha2⟩ | ⟨c1, _, hc2⟩
  · apply litSafe_no_nl hs
    rw [ha2]
    simp
  · cases c1 with
    | nil =>
      simp only [List.nil_append] at hc2
      cases lit with
      | nil => exact litSafe_ne_nil hs rfl
      | cons lh lt =>
        have h3 : '\n' = lh ∧ t0 = lt := by
          simp only [List.cons.injEq] at hc2
          exact hc2
        refine litSafe_head hs rfl ?_
        rw [← h3.1]
        exact List.mem_cons_self _ _
    | cons ch ct =>
      simp only [List.cons_append, List.cons.injEq] at hc2
      have h4 : t0 = ct ++ lit := hc2.2
      cases lit with
      | nil => exact litSafe_ne_nil hs rfl
      | cons lh lt =>
        refine litSafe_head hs rfl ?_
        apply List.mem_cons_of_mem
        rw [hw, h4]
        simp

theorem isPrefixOf_false_of_head {c d : Char} {a s : List Char} (h : ¬ c = d) :
    (c :: a).isPrefixOf (d :: s) = false := by
  simp [List.isPrefixOf, h]

theorem mrun_str_nil {a s : List Char} {g : Caps} (h : a.isPrefixOf s = false) :
    mrun (RE.str a) s g = [] := by
  simp only [mrun]
  rw [h]
  simp

theorem mrun_seq_nil {p q : RE} {s : List Char} {g : Caps} (h : mrun p s g = []) :
    mrun (RE.seq p q) s g = [] := by
  simp [mrun, h]

theorem trule_no_match {r : TRule} {w : List Char} (hs : ruleSafe w r = true)
    {d : Char} (hd : d ∈ '\n' :: w) (t : List Char) :
    mrun (TRule.re r) (d :: t) [] = [] := by
  have firstLit : ∃ a k, (TRule.re r = RE.str a ∨ TRule.re r = RE.seq (RE.str a) k) ∧
      litSafe w a = true := by
    cases r with
    | r0 a => exact ⟨a, RE.eps, Or.inl rfl, hs⟩
    | r1 a c b =>
      simp only [ruleSafe, Bool.and_eq_true] at hs
      exact ⟨a, _, Or.inr rfl, hs.1⟩
    | r2 a c b c2 d2 =>
      simp only [ruleSafe, Bool.and_eq_true] at hs
      exact ⟨a, _, Or.inr rfl, hs.1.1⟩
    | rP a c d2 =>
      simp only [ruleSafe, Bool.and_eq_true] at hs
      exact ⟨a, _, Or.inr rfl, hs.1.1⟩
  obtain ⟨a, k, hre, hlit⟩ := firstLit
  cases a with
  | nil => exact absurd hlit (by simp [litSafe])
  | cons c a2 =>
    have hc : ¬ c = d := fun he => litSafe_head hlit rfl (by rw [he]; exact hd)
    have hpre : (c :: a2).isPrefixOf (d :: t) = false := isPrefixOf_false_of_head hc
    rcases hre with hre | hre
    · rw [hre]
      exact mrun_str_nil hpre
    · rw [hre]
      exact mrun_seq_nil (mrun_str_nil hpre)

theorem mem_mrun_seq {p q : RE} {s : List Char} {g : Caps} {pr : List Char × Caps} :
    pr ∈ mrun (RE.seq p q) s g ↔ ∃ mid ∈ mrun p s g, pr ∈ mrun q mid.1 mid.2 := by
  simp [mrun, List.mem_flatMap]

theorem mem_mrun_str {t s : List Char} {g : Caps} {pr : List Char × Caps}
    (h : pr ∈ mrun (RE.str t) s g) :
    t.isPrefixOf s = true ∧ pr = (s.drop t.length, g) := by
  by_cases hp : t.isPrefixOf s = true
  · simp only [mrun, hp, if_true, List.mem_singleton] at h
    exact ⟨hp, h⟩
  · simp [mrun, hp] at h

theorem mem_mrun_group {n : Nat} {p : RE} {s : List Char} {g : Caps} {pr : List Char × Caps}
    (h : pr ∈ mrun (RE.group n p) s g) :
    ∃ mid ∈ mrun p s g, pr = (mid.1, (n, s.take (s.length - mid.1.length)) :: mid.2) := by
  simp only [mrun, List.mem_map] at h
  obtain ⟨mid, hm, he⟩ := h
  exact ⟨mid, hm, he.symm⟩

theorem mem_mrun_cls {c : CC} {s : List Char} {g : Caps} {pr : List Char × Caps}
    (h : pr ∈ mrun (RE.cls c) s g) :
    ∃ ch t, s = ch :: t ∧ ccMatch c ch = true ∧ pr = (t, g) := by
  cases s with
  | nil => simp [mrun] at h
  | cons ch t =>
    by_cases hm : ccMatch c ch = true
    · simp only [mrun, hm, if_true, List.mem_singleton] at h
      exact ⟨ch, t, rfl, hm, h⟩
    · simp [mrun, hm] at h

theorem mem_mrun_star {c : CC} {s : List Char} {g : Caps} {pr : List Char × Caps}
    (h : pr ∈ mrun (RE.star c) s g) :
    ∃ q, s = q ++ pr.1 ∧ (∀ ch ∈ q, ccMatch c ch = true) ∧ pr.2 = g := by
  simp only [mrun, ccSplits, List.mem_map, List.mem_range] at h
  obtain ⟨r, ⟨k, hk, rfl⟩, rfl⟩ := h
  refine ⟨s.take ((s.takeWhile (ccMatch c)).length - k), (List.take_append_drop _ s).symm,
    ?_, rfl⟩
  intro ch hch
  have hpre1 : s.take ((s.takeWhile (ccMatch c)).length - k) <+: s.takeWhile (ccMatch c) :=
    List.prefix_of_prefix_length_le (List.take_prefix _ s) (List.takeWhile_prefix _)
      (by rw [List.length_take]; exact le_trans (min_le_left _ _) (Nat.sub_le _ _))
  exact List.mem_takeWhile_imp (hpre1.subset hch)

theorem mem_mrun_plus {c : CC} {s : List Char} {g : Caps} {pr : List Char × Caps}
    (h : pr ∈ mrun (RE.seq (RE.cls c) (RE.star c)) s g) :
    ∃ q, s = q ++ pr.1 ∧ q ≠ [] ∧ (∀ ch ∈ q, ccMatch c ch = true) ∧ pr.2 = g := by
  obtain ⟨mid, hmid, hpr⟩ := mem_mrun_seq.mp h
  obtain ⟨ch, t, rfl, hcm, hmide⟩ := mem_mrun_cls hmid
  subst hmide
  dsimp only at hpr
  obtain ⟨q2, ht, hq2, hg⟩ := mem_mrun_star hpr
  refine ⟨ch :: q2, ?_, by simp, ?_, hg⟩
  · rw [List.cons_append, ← ht]
  · intro x hx
    rcases List.mem_cons.mp hx with rfl | hx2
    · exact hcm
    · exact hq2 x hx2

theorem match_shape_r0 {a : List Char} {s rest : List Char} {gr : Caps}
    (h : (rest, gr) ∈ mrun (TRule.re (TRule.r0 a)) s []) : s = a ++ rest := by
  obtain ⟨hpre, he⟩ := mem_mrun_str h
  simp only [Prod.mk.injEq] at he
  obtain ⟨s1, hs1⟩ := List.isPrefixOf_iff_prefix.mp hpre
  rw [he.1, ← hs1, List.drop_left]

theorem match_shape_r1 {a : List Char} {c : CC} {b : List Char} {s rest : List Char}
    {gr : Caps} (h : (rest, gr) ∈ mrun (TRule.re (TRule.r1 a c b)) s []) :
    ∃ q, s = a ++ q ++ b ++ rest ∧ q ≠ [] ∧ (∀ ch ∈ q, ccMatch c ch = true) ∧
      grpGet gr 1 = q := by
  obtain ⟨m1, hm1, h2⟩ := mem_mrun_seq.mp h
  obtain ⟨hpre, hm1e⟩ := mem_mrun_str hm1
  subst hm1e
  dsimp only at h2
  obtain ⟨s1, hs1⟩ := List.isPrefixOf_iff_prefix.mp hpre
  have hdrop : s.drop a.length = s1 := by rw [← hs1]; exact List.drop_left a s1
  rw [hdrop] at h2
  obtain ⟨m2, hm2, h3⟩ := mem_mrun_seq.mp h2
  obtain ⟨m3, hm3, hm2e⟩ := mem_mrun_group hm2
  obtain ⟨q, hq1, hqne, hqcm, hq2⟩ := mem_mrun_plus hm3
  subst hm2e
  dsimp only at h3
  have hcap : s1.take (s1.length - m3.1.length) = q := by
    rw [hq1]
    have hl : (q ++ m3.1).length - m3.1.length = q.length := by
      simp [List.length_append]
    rw [hl, List.take_left]
  rw [hcap, hq2] at h3
  obtain ⟨m4, hm4, h4⟩ := mem_mrun_seq.mp h3
  obtain ⟨hpreb, hm4e⟩ := mem_mrun_str hm4
  subst hm4e
  dsimp only at h4
  simp only [mrun, List.mem_singleton, Prod.mk.injEq] at h4
  obtain ⟨s3, hs3⟩ := List.isPrefixOf_iff_prefix.mp hpreb
  have hdropb : m3.1.drop b.length = s3 := by rw [← hs3]; exact List.drop_left b s3
  refine ⟨q, ?_, hqne, hqcm, ?_⟩
  · rw [← hs1, hq1, ← hs3, h4.1, hdropb]
    simp [List.append_assoc]
  · rw [h4.2]
    simp [grpGet]

theorem match_shape_r2 {a : List Char} {c : CC} {b : List Char} {cc2 : CC} {d : List Char}
    {s rest : List Char} {gr : Caps}
    (h : (rest, gr) ∈ mrun (TRule.re (TRule.r2 a c b cc2 d)) s []) :
    ∃ q1 q2, s = a ++ q1 ++ b ++ q2 ++ d ++ rest ∧ q1 ≠ [] ∧ q2 ≠ [] ∧
      (∀ ch ∈ q1, ccMatch c ch = true) ∧ (∀ ch ∈ q2, ccMatch cc2 ch = true) ∧
      grpGet gr 1 = q1 ∧ grpGet gr 2 = q2 := by
  obtain ⟨m1, hm1, h2⟩ := mem_mrun_seq.mp h
  obtain ⟨hpre, hm1e⟩ := mem_mrun_str hm1
  subst hm1e
  dsimp only at h2
  obtain ⟨s1, hs1⟩ := List.isPrefixOf_iff_prefix.mp hpre
  have hdrop : s.drop a.length = s1 := by rw [← hs1]; exact List.drop_left a s1
  rw [hdrop] at h2
  obtain ⟨m2, hm2, h3⟩ := mem_mrun_seq.mp h2
  obtain ⟨m3, hm3, hm2e⟩ := mem_mrun_group hm2
  obtain ⟨q1, hq1, hq1ne, hq1cm, hq1g⟩ := mem_mrun_plus hm3
  subst hm2e
  dsimp only at h3
  have hcap : s1.take (s1.length - m3.1.length) = q1 := by
    rw [hq1]
    have hl : (q1 ++ m3.1).length - m3.1.length = q1.length := by
      simp [List.length_append]
    rw [hl, List.take_left]
  rw [hcap, hq1g] at h3
  obtain ⟨m4, hm4, h4⟩ := mem_mrun_seq.mp h3
  obtain ⟨hpreb, hm4e⟩ := mem_mrun_str hm4
  subst hm4e
  dsimp only at h4
  obtain ⟨s3, hs3⟩ := List.isPrefixOf_iff_prefix.mp hpreb
  have hdropb : m3.1.drop b.length = s3 := by rw [← hs3]; exact List.drop_left b s3
  rw [hdropb] at h4
  obtain ⟨m5, hm5, h5⟩ := mem_mrun_seq.mp h4
  obtain ⟨m6, hm6, hm5e⟩ := mem_mrun_group hm5
  obtain ⟨q2, hq2, hq2ne, hq2cm, hq2g⟩ := mem_mrun_plus hm6
  subst hm5e
  dsimp only at h5
  have hcap2 : s3.take (s3.length - m6.1.length) = q2 := by
    rw [hq2]
    have hl : (q2 ++ m6.1).length - m6.1.length = q2.length := by
      simp [List.length_append]
    rw [hl, List.take_left]
  rw [hcap2, hq2g] at h5
  obtain ⟨m7, hm7, h6⟩ := mem_mrun_seq.mp h5
  obtain ⟨hpred, hm7e⟩ := mem_mrun_str hm7
  subst hm7e
  dsimp only at h6
  simp only [mrun, List.mem_singleton, Prod.mk.injEq] at h6
  obtain ⟨s5, hs5⟩ := List.isPrefixOf_iff_prefix.mp hpred
  have hdropd : m6.1.drop d.length = s5 := by rw [← hs5]; exact List.drop_left d s5
  refine ⟨q1, q2, ?_, hq1ne, hq2ne, hq1cm, hq2cm, ?_, ?_⟩
  · rw [← hs1, hq1, ← hs3, hq2, ← hs5, h6.1, hdropd]
    simp [List.append_assoc]
  · rw [h6.2]
    simp [grpGet]
  · rw [h6.2]
    simp [grpGet]

theorem match_shape_rP {a : List Char} {c : CC} {d : List Char} {s rest : List Char}
    {gr : Caps} (h : (rest, gr) ∈ mrun (TRule.re (TRule.rP a c d)) s []) :
    ∃ q, s = a ++ q ++ d ++ rest ∧ q ≠ [] ∧ (∀ ch ∈ q, ccMatch c ch = true) := by
  obtain ⟨m1, hm1, h2⟩ := mem_mrun_seq.mp h
  obtain ⟨hpre, hm1e⟩ := mem_mrun_str hm1
  subst hm1e
  dsimp only at h2
  obtain ⟨s1, hs1⟩ := List.isPrefixOf_iff_prefix.mp hpre
  have hdrop : s.drop a.length = s1 := by rw [← hs1]; exact List.drop_left a s1
  rw [hdrop] at h2
  obtain ⟨m2, hm2, h3⟩ := mem_mrun_seq.mp h2
  obtain ⟨q, hq1, hqne, hqcm, hqg⟩ := mem_mrun_plus hm2
  obtain ⟨m4, hm4, h4⟩ := mem_mrun_seq.mp h3
  obtain ⟨hpred, hm4e⟩ := mem_mrun_str hm4
  subst hm4e
  dsimp only at h4
  simp only [mrun, List.mem_singleton, Prod.mk.injEq] at h4
  obtain ⟨s3, hs3⟩ := List.isPrefixOf_iff_prefix.mp hpred
  have hdropd : m2.1.drop d.length = s3 := by rw [← hs3]; exact List.drop_left d s3
  refine ⟨q, ?_, hqne, hqcm⟩
  rw [← hs1, hq1, ← hs3, h4.1, hdropd]
  simp [List.append_assoc]

theorem applyTmpl_emit {t : List TI} {n : Nat} (h : TI.ref n ∈ t) (g : Caps) :
    ∃ x y, applyTmpl t g = x ++ grpGet g n ++ y := by
  induction t with
  | nil => simp at h
  | cons i t ih =>
    rcases List.mem_cons.mp h with he | h2
    · refine ⟨[], applyTmpl t g, ?_⟩
      rw [← he]
      have hr : applyTmpl (TI.ref n :: t) g = grpGet g n ++ applyTmpl t g := rfl
      rw [hr]
      simp
    · obtain ⟨x, y, hxy⟩ := ih h2
      cases i with
      | lit l =>
        refine ⟨l ++ x, y, ?_⟩
        have hr : applyTmpl (TI.lit l :: t) g = l ++ applyTmpl t g := rfl
        rw [hr, hxy]
        simp [List.append_assoc]
      | ref n2 =>
        refine ⟨grpGet g n2 ++ x, y, ?_⟩
        have hr : applyTmpl (TI.ref n2 :: t) g = grpGet g n2 ++ applyTmpl t g := rfl
        rw [hr, hxy]
        simp [List.append_assoc]

/-! ## Placement of a line block inside a rule match -/

theorem place_r1 {w a q b u t2 : List Char} (hsa : litSafe w a = true)
    (hsb : litSafe w b = true)
    (h : a ++ (q ++ b) = u ++ ('\n' :: w ++ ['\n']) ++ t2) :
    ∃ x y, q = x ++ ('\n' :: w ++ ['\n']) ++ y := by
  rcases append_block_cases a (q ++ b) u ('\n' :: w ++ ['\n']) t2 h with
    ⟨y, hA, _⟩ | ⟨t5, _, hB⟩ | ⟨y, z, hblk, hy, _, hA, _⟩
  · exact absurd hA (fun he => lit_contra_contain hsa he)
  · rcases append_block_cases q b t5 ('\n' :: w ++ ['\n']) t2 hB with
      ⟨y, hq, _⟩ | ⟨t6, _, hb⟩ | ⟨y, z, hblk, _, hz, _, hbz⟩
    · exact ⟨t5, y, hq⟩
    · exact absurd hb (fun he => lit_contra_contain hsb he)
    · exact absurd hbz (fun he =>
        lit_contra_suffix hsb hz hblk (by rw [List.append_nil]; exact he))
  · exact absurd hA (fun he => lit_contra_prefix hsa hy hblk he)

theorem place_r2 {w a q1 b q2 d u t2 : List Char} (hsa : litSafe w a = true)
    (hsb : litSafe w b = true) (hsd : litSafe w d = true)
    (h : a ++ (q1 ++ (b ++ (q2 ++ d))) = u ++ ('\n' :: w ++ ['\n']) ++ t2) :
    (∃ x y, q1 = x ++ ('\n' :: w ++ ['\n']) ++ y) ∨
    (∃ x y, q2 = x ++ ('\n' :: w ++ ['\n']) ++ y) := by
  rcases append_block_cases a (q1 ++ (b ++ (q2 ++ d))) u ('\n' :: w ++ ['\n']) t2 h with
    ⟨y, hA, _⟩ | ⟨t5, _, hB⟩ | ⟨y, z, hblk, hy, _, hA, _⟩
  · exact absurd hA (fun he => lit_contra_contain hsa he)
  · rcases append_block_cases q1 (b ++ (q2 ++ d)) t5 ('\n' :: w ++ ['\n']) t2 hB with
      ⟨y, hq, _⟩ | ⟨t6, _, hB2⟩ | ⟨y, z, hblk, _, hz, _, hbz⟩
    · exact Or.inl ⟨t5, y, hq⟩
    · rcases append_block_cases b (q2 ++ d) t6 ('\n' :: w ++ ['\n']) t2 hB2 with
        ⟨y, hb, _⟩ | ⟨t7, _, hB3⟩ | ⟨y, z, hblk, hy, _, hb, _⟩
      · exact absurd hb (fun he => lit_contra_contain hsb he)
      · rcases append_block_cases q2 d t7 ('\n' :: w ++ ['\n']) t2 hB3 with
          ⟨y, hq, _⟩ | ⟨t8, _, hd⟩ | ⟨y, z, hblk, _, hz, _, hdz⟩
        · exact Or.inr ⟨t7, y, hq⟩
        · exact absurd hd (fun he => lit_contra_contain hsd he)
        · exact absurd hdz (fun he =>
            lit_contra_suffix hsd hz hblk (by rw [List.append_nil]; exact he))
      · exact absurd hb (fun he => lit_contra_prefix hsb hy hblk he)
    · exact absurd hbz (fun he => lit_contra_suffix hsb hz hblk he)
  · exact absurd hA (fun he => lit_contra_prefix hsa hy hblk he)

theorem place_rP {w a q d u t2 : List Char} {c : CC} (hsa : litSafe w a = true)
    (hsd : litSafe w d = true) (hwit : ∃ ch ∈ '\n' :: w, ccMatch c ch = false)
    (hq : ∀ ch ∈ q, ccMatch c ch = true)
    (h : a ++ (q ++ d) = u ++ ('\n' :: w ++ ['\n']) ++ t2) : False := by
  rcases append_block_cases a (q ++ d) u ('\n' :: w ++ ['\n']) t2 h with
    ⟨y, hA, _⟩ | ⟨t5, _, hB⟩ | ⟨y, z, hblk, hy, _, hA, _⟩
  · exact lit_contra_contain hsa hA
  · rcases append_block_cases q d t5 ('\n' :: w ++ ['\n']) t2 hB with
      ⟨y, hqe, _⟩ | ⟨t6, _, hd⟩ | ⟨y, z, hblk, _, hz, _, hdz⟩
    · obtain ⟨ch, hch, hcm⟩ := hwit
      have hinq : ch ∈ q := by
        rw [hqe]
        have h1 : ch ∈ '\n' :: w ++ ['\n'] := List.mem_append.mpr (Or.inl hch)
        exact List.mem_append.mpr (Or.inl (List.mem_append.mpr (Or.inr h1)))
      rw [hq ch hinq] at hcm
      exact Bool.noConfusion hcm
    · exact lit_contra_contain hsd hd
    · exact lit_contra_suffix hsd hz hblk (by rw [List.append_nil]; exact hdz)
  · exact lit_contra_prefix hsa hy hblk hA

/-- Where a line occurrence can sit relative to a match at the head of the
buffer: either the whole block (with its flanking newlines) lies after the
match, or the match contains the whole block. -/
theorem match_block_cases {w : List Char} {m rest u v : List Char}
    (hef : endFlank v) (hsm : m ++ rest = u ++ '\n' :: w ++ v)
    (hlit : ∃ A lit, m = A ++ lit ∧ litSafe w lit = true) :
    (∃ u2 v2, rest = u2 ++ '\n' :: w ++ v2 ∧ endFlank v2) ∨
    (∃ t2, m = u ++ ('\n' :: w ++ ['\n']) ++ t2) := by
  rw [List.append_assoc] at hsm
  rcases List.append_eq_append_iff.mp hsm with ⟨a1, hu, hrest⟩ | ⟨c1, hm, hD⟩
  · left
    refine ⟨a1, v, ?_, hef⟩
    rw [hrest]
    simp [List.append_assoc]
  · cases c1 with
    | nil =>
      left
      refine ⟨[], v, ?_, hef⟩
      simp only [List.nil_append] at hD ⊢
      rw [← hD]
    | cons ch t0 =>
      have hD2 : '\n' = ch ∧ w ++ v = t0 ++ rest := by
        have h2 := hD
        simp only [List.cons_append, List.cons.injEq] at h2
        exact h2
      obtain ⟨hch, hwv⟩ := hD2
      rcases List.append_eq_append_iff.mp hwv with ⟨t1, ht0, hv⟩ | ⟨t1, hw2, hrest2⟩
      · cases t1 with
        | nil =>
          obtain ⟨A, lit, hmA, hslit⟩ := hlit
          exact (lit_end_in_w hslit hmA
            (by rw [hm, ← hch, ht0, List.append_nil]) (show w = w ++ [] by simp)).elim
        | cons d1 t1' =>
          rcases hef with rfl | ⟨v2, hv2⟩
          · simp at hv
          · have hd1 : d1 = '\n' ∧ v2 = t1' ++ rest := by
              rw [hv2] at hv
              simp only [List.cons_append, List.cons.injEq] at hv
              exact ⟨hv.1.symm, hv.2⟩
            right
            refine ⟨t1', ?_⟩
            rw [hm, ← hch, ht0, hd1.1]
            simp [List.append_assoc]
      · obtain ⟨A, lit, hmA, hslit⟩ := hlit
        exact (lit_end_in_w hslit hmA (by rw [hm, ← hch]) hw2).elim

/-- After the protected line, the scan keeps the newline structure: the
output of the remaining scan is empty or starts with a newline whenever the
remaining input is. -/
theorem resubGo_flank {r : TRule} {w : List Char} (hs : ruleSafe w r = true)
    (f : List Char → Caps → List Char) :
    ∀ (fuel : Nat) (v : List Char), endFlank v →
      ∃ v2, resubGo fuel (TRule.re r) f v = v2 ∧ endFlank v2 := by
  intro fuel v hef
  rcases hef with rfl | ⟨v3, rfl⟩
  · cases fuel with
    | zero => exact ⟨[], rfl, Or.inl rfl⟩
    | succ n => exact ⟨[], rfl, Or.inl rfl⟩
  · cases fuel with
    | zero => exact ⟨'\n' :: v3, rfl, Or.inr ⟨v3, rfl⟩⟩
    | succ n =>
      have hmr : mrun (TRule.re r) ('\n' :: v3) [] = [] :=
        trule_no_match hs (List.mem_cons_self _ _) v3
      refine ⟨'\n' :: resubGo n (TRule.re r) f v3, ?_, Or.inr ⟨_, rfl⟩⟩
      simp only [resubGo, hmr]

/-- The scan copies a suffix of the protected line verbatim: no rule match
can start inside the line, so its characters and the following newline pass
through unchanged. -/
theorem resubGo_mid {r : TRule} {w : List Char} (hs : ruleSafe w r = true)
    (f : List Char → Caps → List Char) :
    ∀ (w2 v : List Char) (fuel : Nat), w2 ≠ [] → w2 <:+ w → endFlank v →
      (w2 ++ v).length < fuel →
      ∃ v2, resubGo fuel (TRule.re r) f (w2 ++ v) = w2 ++ v2 ∧ endFlank v2 := by
  intro w2
  induction w2 with
  | nil => intro v fuel hne; exact absurd rfl hne
  | cons ch w2' ih =>
    intro v fuel _ hsuf hef hlen
    cases fuel with
    | zero => simp at hlen
    | succ n =>
      have hch : ch ∈ '\n' :: w :=
        List.mem_cons_of_mem _ (hsuf.subset (List.mem_cons_self ch w2'))
      have hmr : mrun (TRule.re r) (ch :: (w2' ++ v)) [] = [] := trule_no_match hs hch _
      by_cases hw2 : w2' = []
      · subst hw2
        obtain ⟨v2, hv2, hef2⟩ := resubGo_flank hs f n v hef
        refine ⟨v2, ?_, hef2⟩
        show resubGo (n + 1) (TRule.re r) f (ch :: ([] ++ v)) = (ch :: []) ++ v2
        simp only [List.nil_append] at hmr ⊢
        simp only [resubGo, hmr, hv2]
        rfl
      · have hsuf' : w2' <:+ w := List.IsSuffix.trans (List.suffix_cons ch w2') hsuf
        have hlen' : (w2' ++ v).length < n := by
          simp only [List.cons_append, List.length_cons] at hlen
          omega
        obtain ⟨v2, hv2, hef2⟩ := ih v n hw2 hsuf' hef hlen'
        refine ⟨v2, ?_, hef2⟩
        show resubGo (n + 1) (TRule.re r) f (ch :: (w2' ++ v)) = (ch :: w2') ++ v2
        simp only [resubGo, hmr, hv2]
        rfl

/-- Interior survival: a line of the buffer that satisfies the rule's safety
conditions reappears as a line of the substitution output. -/
theorem resubGo_int {r : TRule} {w : List Char} (hw : w ≠ []) (hnl : '\n' ∉ w)
    (hs : ruleSafe w r = true) {f : List Char → Caps → List Char}
    (hf : ∀ m gr, blockEmit r f m gr) :
    ∀ (fuel : Nat) (u v : List Char), endFlank v →
      (u ++ '\n' :: w ++ v).length < fuel →
      ∃ u2 v2, resubGo fuel (TRule.re r) f (u ++ '\n' :: w ++ v)
          = u2 ++ '\n' :: w ++ v2 ∧ endFlank v2 := by
  intro fuel
  induction fuel with
  | zero =>
    intro u v _ hlen
    simp at hlen
  | succ n ihf =>
    intro u v hef hlen
    cases u with
    | nil =>
      have hform : (([] : List Char)) ++ '\n' :: w ++ v = '\n' :: (w ++ v) := by simp
      rw [hform] at hlen ⊢
      have hmr : mrun (TRule.re r) ('\n' :: (w ++ v)) [] = [] :=
        trule_no_match hs (List.mem_cons_self _ _) _
      have hlen2 : (w ++ v).length < n := by
        simp only [List.length_cons] at hlen
        omega
      obtain ⟨v2, hv2, hef2⟩ := resubGo_mid hs f w v n hw List.suffix_rfl hef hlen2
      refine ⟨[], v2, ?_, hef2⟩
      simp only [resubGo, hmr, hv2]
      simp
    | cons c u' =>
      have hform : (c :: u') ++ '\n' :: w ++ v = c :: (u' ++ '\n' :: w ++ v) := by simp
      rw [hform] at hlen ⊢
      cases hmr : mrun (TRule.re r) (c :: (u' ++ '\n' :: w ++ v)) [] with
      | nil =>
        have hlen2 : (u' ++ '\n' :: w ++ v).length < n := by
          simp only [List.length_cons] at hlen
          omega
        obtain ⟨u2, v2, hrec, hef2⟩ := ihf u' v hef hlen2
        refine ⟨c :: u2, v2, ?_, hef2⟩
        simp only [resubGo, hmr, hrec]
        simp
      | cons pr tail1 =>
        obtain ⟨rest, gr⟩ := pr
        have hmem : (rest, gr) ∈ mrun (TRule.re r) (c :: (u' ++ '\n' :: w ++ v)) [] := by
          rw [hmr]
          exact List.mem_cons_self _ _
        cases r with
        | r0 a =>
          have hshape := match_shape_r0 hmem
          have hM : c :: (u' ++ '\n' :: w ++ v) = a ++ rest := hshape
          have haNe : a ≠ [] := litSafe_ne_nil hs
          have hapos : 0 < a.length := List.length_pos.mpr haNe
          have hlt : rest.length < (c :: (u' ++ '\n' :: w ++ v)).length := by
            rw [hM]
            simp only [List.length_append]
            omega
          have hm0 : (c :: (u' ++ '\n' :: w ++ v)).take
              ((c :: (u' ++ '\n' :: w ++ v)).length - rest.length) = a := by
            rw [hM]
            exact List.take_left' (by simp only [List.length_append]; omega)
          have hstep : resubGo (n + 1) (TRule.re (TRule.r0 a)) f
                (c :: (u' ++ '\n' :: w ++ v))
              = f a gr ++ resubGo n (TRule.re (TRule.r0 a)) f rest := by
            simp only [resubGo, hmr]
            rw [if_pos hlt, hm0]
          have hsm : a ++ rest = (c :: u') ++ '\n' :: w ++ v := by
            rw [← hM]
            simp
          rcases match_block_cases hef hsm ⟨[], a, by simp, hs⟩ with
            ⟨u2, v2, hrest, hef2⟩ | ⟨t2, hblk⟩
          · have hlenr : (u2 ++ '\n' :: w ++ v2).length < n := by
              rw [← hrest]
              have h1 := hlen
              have h2 := hlt
              simp only [List.length_cons] at h1 h2
              omega
            obtain ⟨u3, v3, hrec, hef3⟩ := ihf u2 v2 hef2 hlenr
            rw [← hrest] at hrec
            refine ⟨f a gr ++ u3, v3, ?_, hef3⟩
            rw [hstep, hrec]
            simp [List.append_assoc]
          · exact (lit_contra_contain hs hblk).elim
        | r1 a c1 b =>
          simp only [ruleSafe, Bool.and_eq_true] at hs
          obtain ⟨q, hshape, hqne, hqcm, hqg⟩ := match_shape_r1 hmem
          have hM : c :: (u' ++ '\n' :: w ++ v) = (a ++ (q ++ b)) ++ rest := by
            rw [hshape]
            simp [List.append_assoc]
          have hapos : 0 < a.length := List.length_pos.mpr (litSafe_ne_nil hs.1)
          have hlt : rest.length < (c :: (u' ++ '\n' :: w ++ v)).length := by
            rw [hM]
            simp only [List.length_append]
            omega
          have hm0 : (c :: (u' ++ '\n' :: w ++ v)).take
              ((c :: (u' ++ '\n' :: w ++ v)).length - rest.length) = a ++ (q ++ b) := by
            rw [hM]
            exact List.take_left' (by simp only [List.length_append]; omega)
          have hstep : resubGo (n + 1) (TRule.re (TRule.r1 a c1 b)) f
                (c :: (u' ++ '\n' :: w ++ v))
              = f (a ++ (q ++ b)) gr ++ resubGo n (TRule.re (TRule.r1 a c1 b)) f rest := by
            simp only [resubGo, hmr]
            rw [if_pos hlt, hm0]
          have hsm : (a ++ (q ++ b)) ++ rest = (c :: u') ++ '\n' :: w ++ v := by
            rw [← hM]
            simp
          rcases match_block_cases hef hsm
              ⟨a ++ q, b, by simp [List.append_assoc], hs.2⟩ with
            ⟨u2, v2, hrest, hef2⟩ | ⟨t2, hblk⟩
          · have hlenr : (u2 ++ '\n' :: w ++ v2).length < n := by
              rw [← hrest]
              have h1 := hlen
              have h2 := hlt
              simp only [List.length_cons] at h1 h2
              omega
            obtain ⟨u3, v3, hrec, hef3⟩ := ihf u2 v2 hef2 hlenr
            rw [← hrest] at hrec
            refine ⟨f (a ++ (q ++ b)) gr ++ u3, v3, ?_, hef3⟩
            rw [hstep, hrec]
            simp [List.append_assoc]
          · obtain ⟨x, y, hqs⟩ := place_r1 hs.1 hs.2 hblk
            obtain ⟨x2, y2, hfm⟩ := hf (a ++ (q ++ b)) gr
            rw [hqg] at hfm
            refine ⟨x2 ++ x, '\n' :: (y ++ (y2 ++ resubGo n (TRule.re (TRule.r1 a c1 b)) f rest)),
              ?_, Or.inr ⟨_, rfl⟩⟩
            rw [hstep, hfm, hqs]
            simp [List.append_assoc]
        | r2 a c1 b c2 d =>
          simp only [ruleSafe, Bool.and_eq_true] at hs
          obtain ⟨q1, q2, hshape, hq1ne, hq2ne, hq1cm, hq2cm, hqg1, hqg2⟩ :=
            match_shape_r2 hmem
          have hM : c :: (u' ++ '\n' :: w ++ v)
              = (a ++ (q1 ++ (b ++ (q2 ++ d)))) ++ rest := by
            rw [hshape]
            simp [List.append_assoc]
          have hapos : 0 < a.length := List.length_pos.mpr (litSafe_ne_nil hs.1.1)
          have hlt : rest.length < (c :: (u' ++ '\n' :: w ++ v)).length := by
            rw [hM]
            simp only [List.length_append]
            omega
          have hm0 : (c :: (u' ++ '\n' :: w ++ v)).take
              ((c :: (u' ++ '\n' :: w ++ v)).length - rest.length)
              = a ++ (q1 ++ (b ++ (q2 ++ d))) := by
            rw [hM]
            exact List.take_left' (by simp only [List.length_append]; omega)
          have hstep : resubGo (n + 1) (TRule.re (TRule.r2 a c1 b c2 d)) f
                (c :: (u' ++ '\n' :: w ++ v))
              = f (a ++ (q1 ++ (b ++ (q2 ++ d)))) gr
                ++ resubGo n (TRule.re (TRule.r2 a c1 b c2 d)) f rest := by
            simp only [resubGo, hmr]
            rw [if_pos hlt, hm0]
          have hsm : (a ++ (q1 ++ (b ++ (q2 ++ d)))) ++ rest
              = (c :: u') ++ '\n' :: w ++ v := by
            rw [← hM]
            simp
          rcases match_block_cases hef hsm
              ⟨a ++ (q1 ++ (b ++ q2)), d, by simp [List.append_assoc], hs.2⟩ with
            ⟨u2, v2, hrest, hef2⟩ | ⟨t2, hblk⟩
          · have hlenr : (u2 ++ '\n' :: w ++ v2).length < n := by
              rw [← hrest]
              have h1 := hlen
              have h2 := hlt
              simp only [List.length_cons] at h1 h2
              omega
            obtain ⟨u3, v3, hrec, hef3⟩ := ihf u2 v2 hef2 hlenr
            rw [← hrest] at hrec
            refine ⟨f (a ++ (q1 ++ (b ++ (q2 ++ d)))) gr ++ u3, v3, ?_, hef3⟩
            rw [hstep, hrec]
            simp [List.append_assoc]
          · rcases place_r2 hs.1.1 hs.1.2 hs.2 hblk with ⟨x, y, hqs⟩ | ⟨x, y, hqs⟩
            · obtain ⟨x2, y2, hfm⟩ := (hf (a ++ (q1 ++ (b ++ (q2 ++ d)))) gr).1
              rw [hqg1] at hfm
              refine ⟨x2 ++ x, '\n' :: (y ++ (y2 ++ resubGo n
                  (TRule.re (TRule.r2 a c1 b c2 d)) f rest)), ?_, Or.inr ⟨_, rfl⟩⟩
              rw [hstep, hfm, hqs]
              simp [List.append_assoc]
            · obtain ⟨x2, y2, hfm⟩ := (hf (a ++ (q1 ++ (b ++ (q2 ++ d)))) gr).2
              rw [hqg2] at hfm
              refine ⟨x2 ++ x, '\n' :: (y ++ (y2 ++ resubGo n
                  (TRule.re (TRule.r2 a c1 b c2 d)) f rest)), ?_, Or.inr ⟨_, rfl⟩⟩
              rw [hstep, hfm, hqs]
              simp [List.append_assoc]
        | rP a c1 d =>
          simp only [ruleSafe, Bool.and_eq_true] at hs
          obtain ⟨ch, hch, hcm⟩ := List.any_eq_true.mp hs.2
          rw [Bool.not_eq_true'] at hcm
          obtain ⟨q, hshape, hqne, hqcm⟩ := match_shape_rP hmem
          have hM : c :: (u' ++ '\n' :: w ++ v) = (a ++ (q ++ d)) ++ rest := by
            rw [hshape]
            simp [List.append_assoc]
          have hapos : 0 < a.length := List.length_pos.mpr (litSafe_ne_nil hs.1.1)
          have hlt : rest.length < (c :: (u' ++ '\n' :: w ++ v)).length := by
            rw [hM]
            simp only [List.length_append]
            omega
          have hm0 : (c :: (u' ++ '\n' :: w ++ v)).take
              ((c :: (u' ++ '\n' :: w ++ v)).length - rest.length) = a ++ (q ++ d) := by
            rw [hM]
            exact List.take_left' (by simp only [List.length_append]; omega)
          have hstep : resubGo (n + 1) (TRule.re (TRule.rP a c1 d)) f
                (c :: (u' ++ '\n' :: w ++ v))
              = f (a ++ (q ++ d)) gr ++ resubGo n (TRule.re (TRule.rP a c1 d)) f rest := by
            simp only [resubGo, hmr]
            rw [if_pos hlt, hm0]
          have hsm : (a ++ (q ++ d)) ++ rest = (c :: u') ++ '\n' :: w ++ v := by
            rw [← hM]
            simp
          rcases match_block_cases hef hsm
              ⟨a ++ q, d, by simp [List.append_assoc], hs.1.2⟩ with
            ⟨u2, v2, hrest, hef2⟩ | ⟨t2, hblk⟩
          · have hlenr : (u2 ++ '\n' :: w ++ v2).length < n := by
              rw [← hrest]
              have h1 := hlen
              have h2 := hlt
              simp only [List.length_cons] at h1 h2
              omega
            obtain ⟨u3, v3, hrec, hef3⟩ := ihf u2 v2 hef2 hlenr
            rw [← hrest] at hrec
            refine ⟨f (a ++ (q ++ d)) gr ++ u3, v3, ?_, hef3⟩
            rw [hstep, hrec]
            simp [List.append_assoc]
          · exact (place_rP hs.1.1 hs.1.2 ⟨ch, hch, hcm⟩ hqcm hblk).elim

/-- A line satisfying the safety conditions of a rule survives the whole
`re.sub` pass of that rule. -/
theorem resubF_line_keeps {r : TRule} {w : List Char} (hw : w ≠ []) (hnl : '\n' ∉ w)
    (hs : ruleSafe w r = true) {f : List Char → Caps → List Char}
    (hf : ∀ m gr, blockEmit r f m gr) {s : List Char} (hmem : w ∈ splitNl s) :
    w ∈ splitNl (resubF (TRule.re r) f s) := by
  rcases mem_splitNl_decomp hmem with ⟨v, hse, hef⟩ | ⟨u, v, hse, hef⟩
  · show w ∈ splitNl (resubGo (s.length + 1) (TRule.re r) f s)
    rw [hse]
    obtain ⟨v2, hv2, hef2⟩ := resubGo_mid hs f w v ((w ++ v).length + 1) hw
      List.suffix_rfl hef (Nat.lt_succ_self _)
    rw [hv2]
    exact mem_splitNl_start hnl hef2
  · show w ∈ splitNl (resubGo (s.length + 1) (TRule.re r) f s)
    rw [hse]
    obtain ⟨u2, v2, hrw, hef2⟩ := resubGo_int hw hnl hs hf
      ((u ++ '\n' :: w ++ v).length + 1) u v hef (Nat.lt_succ_self _)
    rw [hrw]
    exact mem_splitNl_interior hnl hef2

/-! ## Line survival through the line-level passes -/

theorem mem_strRepGo_chars {n r2 : List Char} :
    ∀ (fuel : Nat) (s : List Char) (ch : Char),
      ch ∈ strRepGo fuel s n r2 → ch ∈ s ∨ ch ∈ r2 := by
  intro fuel
  induction fuel with
  | zero =>
    intro s ch h
    exact Or.inl h
  | succ fuel ih =>
    intro s ch h
    cases s with
    | nil => simp [strRepGo] at h
    | cons c t =>
      by_cases hp : n.isPrefixOf (c :: t) = true
      · simp only [strRepGo, hp, if_true] at h
        rcases List.mem_append.mp h with h2 | h2
        · exact Or.inr h2
        · rcases ih _ ch h2 with h3 | h3
          · exact Or.inl (List.mem_of_mem_drop h3)
          · exact Or.inr h3
      · simp only [strRepGo, hp, Bool.false_eq_true, if_false] at h
        rcases List.mem_cons.mp h with rfl | h2
        · exact Or.inl (List.mem_cons_self _ _)
        · rcases ih t ch h2 with h3 | h3
          · exact Or.inl (List.mem_cons_of_mem _ h3)
          · exact Or.inr h3

theorem no_nl_strReplace {l n r2 : List Char} (hl : '\n' ∉ l) (hr : '\n' ∉ r2) :
    '\n' ∉ strReplace l n r2 := by
  intro hmem
  unfold strReplace at hmem
  by_cases hn : n.isEmpty = true
  · rw [if_pos hn] at hmem
    rcases List.mem_append.mp hmem with h | h
    · exact hr h
    · simp only [List.mem_flatMap] at h
      obtain ⟨c, hc, h2⟩ := h
      rcases List.mem_cons.mp h2 with rfl | h3
      · exact hl hc
      · exact hr h3
  · rw [if_neg hn] at hmem
    rcases mem_strRepGo_chars _ l '\n' hmem with h | h
    · exact hl h
    · exact hr h

theorem step6Go_mem_line
    (hno : containsSub (lch "using Xunit;") (lch "public async Task") = false) :
    ∀ ls, lch "using Xunit;" ∈ ls → lch "using Xunit;" ∈ step6Go ls := by
  intro ls
  induction ls with
  | nil =>
    intro h
    simp at h
  | cons l rest ih =>
    intro h
    simp only [step6Go]
    rcases List.mem_cons.mp h with rfl | h2
    · simp only [hno, Bool.false_and, Bool.false_eq_true, if_false]
      exact List.mem_cons_self _ _
    · exact List.mem_cons_of_mem _ (ih h2)

theorem step6Go_no_nl : ∀ {ls : List (List Char)}, (∀ l ∈ ls, '\n' ∉ l) →
    ∀ l ∈ step6Go ls, '\n' ∉ l := by
  intro ls
  induction ls with
  | nil =>
    intro _ l hl
    simp [step6Go] at hl
  | cons l0 rest ih =>
    intro h l hl
    simp only [step6Go] at hl
    rcases List.mem_cons.mp hl with heq | h2
    · rw [heq]
      split_ifs with hc
      · exact no_nl_strReplace (h l0 (List.mem_cons_self _ _)) (by decide)
      · exact h l0 (List.mem_cons_self _ _)
    · exact ih (fun x hx => h x (List.mem_cons_of_mem _ hx)) l h2

theorem step6Go_ne_nil {ls : List (List Char)} (h : ls ≠ []) : step6Go ls ≠ [] := by
  cases ls with
  | nil => exact absurd rfl h
  | cons l rest => simp [step6Go]

theorem step6_keeps_line {x : List Char} (h : lch "using Xunit;" ∈ splitNl x) :
    lch "using Xunit;" ∈ splitNl (joinNl (step6Go (splitNl x))) := by
  rw [splitNl_joinNl (step6Go_ne_nil (splitNl_ne_nil x))
    (step6Go_no_nl (fun l hl => mem_splitNl_no_nl hl))]
  exact step6Go_mem_line (by decide) (splitNl x) h

theorem mem_dedupGo_of_mem : ∀ (ls seen : List (List Char)) (x : List Char),
    x ∈ ls → x ∈ dedupGo seen ls ∨ x ∈ seen := by
  intro ls
  induction ls with
  | nil =>
    intro seen x h
    simp at h
  | cons l rest ih =>
    intro seen x h
    rcases List.mem_cons.mp h with rfl | h2
    · by_cases hu : usingLine x = true
      · by_cases hc : seen.contains x = true
        · exact Or.inr (contains_iff_mem_ll.mp hc)
        · left
          simp only [dedupGo, hu, if_true, hc, Bool.false_eq_true, if_false]
          exact List.mem_cons_self _ _
      · left
        have hu' : usingLine x = false := eq_false_of_ne_true hu
        simp only [dedupGo, hu', Bool.false_eq_true, if_false]
        exact List.mem_cons_self _ _
    · by_cases hu : usingLine l = true
      · by_cases hc : seen.contains l = true
        · rcases ih seen x h2 with h3 | h3
          · left
            simp only [dedupGo, hu, if_true, hc]
            exact h3
          · exact Or.inr h3
        · rcases ih (l :: seen) x h2 with h3 | h3
          · left
            simp only [dedupGo, hu, if_true, hc, Bool.false_eq_true, if_false]
            exact List.mem_cons_of_mem _ h3
          · rcases List.mem_cons.mp h3 with rfl | h4
            · left
              simp only [dedupGo, hu, if_true, hc, Bool.false_eq_true, if_false]
              exact List.mem_cons_self _ _
            · exact Or.inr h4
      · have hu' : usingLine l = false := eq_false_of_ne_true hu
        rcases ih seen x h2 with h3 | h3
        · left
          simp only [dedupGo, hu', Bool.false_eq_true, if_false]
          exact List.mem_cons_of_mem _ h3
        · exact Or.inr h3

theorem mem_dedupUsings {ls : List (List Char)} {x : List Char} (h : x ∈ ls) :
    x ∈ dedupUsings ls := by
  rcases mem_dedupGo_of_mem ls [] x h with h2 | h2
  · exact h2
  · simp at h2

theorem containsSub_of_line {w s : List Char} (h : w ∈ splitNl s) :
    containsSub s w = true := by
  rcases mem_splitNl_decomp h with ⟨v, rfl, _⟩ | ⟨u, v, hse, _⟩
  · exact containsSub_of_prefix ⟨v, rfl⟩
  · apply containsSub_of_infix
    exact ⟨u ++ ['\n'], v, by rw [hse]; simp⟩

theorem ensureXunitUsing_of_contains {c : List Char}
    (h : containsSub c (lch "using Xunit;") = true) : ensureXunitUsing c = c := by
  unfold ensureXunitUsing
  by_cases ht : (containsSub c (lch "[Test]") || containsSub c (lch "[Fact]")) = true
  · rw [if_pos ht, h]
    simp
  · rw [if_neg ht]

theorem blockEmit_tmpl_r1 {a : List Char} {c : CC} {b : List Char} {t : List TI}
    (h1 : TI.ref 1 ∈ t) :
    ∀ m gr, blockEmit (TRule.r1 a c b) (fun _ g => applyTmpl t g) m gr :=
  fun _ gr => applyTmpl_emit h1 gr

theorem blockEmit_tmpl_r2 {a : List Char} {c : CC} {b : List Char} {c2 : CC}
    {d : List Char} {t : List TI} (h1 : TI.ref 1 ∈ t) (h2 : TI.ref 2 ∈ t) :
    ∀ m gr, blockEmit (TRule.r2 a c b c2 d) (fun _ g => applyTmpl t g) m gr :=
  fun _ gr => ⟨applyTmpl_emit h1 gr, applyTmpl_emit h2 gr⟩

/-- The line `using Xunit;` survives every substitution rule of
`convert_file` after the insertion step (source lines 43-133): each rule's
literals cannot overlap the line, its class runs either reject a character
of the line or are captured groups that the replacement emits verbatim, and
the async-removal pass leaves the line unchanged. -/
theorem convertRules_keeps_line (x : List Char)
    (h : lch "using Xunit;" ∈ splitNl x) :
    lch "using Xunit;" ∈ splitNl (convertRules x) := by
  have hw : lch "using Xunit;" ≠ [] := by decide
  have hnl : '\n' ∉ lch "using Xunit;" := by decide
  have k01 : ∀ y, lch "using Xunit;" ∈ splitNl y →
      lch "using Xunit;" ∈ splitNl (resub (rlit "[Test]") [tl "[Fact]"] y) :=
    fun y hy => resubF_line_keeps (r := TRule.r0 (lch "[Test]"))
      hw hnl (by decide) (fun _ _ => trivial) hy
  have k02 : ∀ y, lch "using Xunit;" ∈ splitNl y →
      lch "using Xunit;" ∈ splitNl (resub (rlit "[TestMethod]") [tl "[Fact]"] y) :=
    fun y hy => resubF_line_keeps (r := TRule.r0 (lch "[TestMethod]"))
      hw hnl (by decide) (fun _ _ => trivial) hy
  have k03 : ∀ y, lch "using Xunit;" ∈ splitNl y →
      lch "using Xunit;" ∈ splitNl (resub
        (seqs [rlit "public async void ", RE.group 1 plusWord, rlit "()"])
        [tl "public void ", TI.ref 1, tl "()"] y) :=
    fun y hy => resubF_line_keeps
      (r := TRule.r1 (lch "public async void ") CC.word (lch "()"))
      hw hnl (by decide) (blockEmit_tmpl_r1 (by decide)) hy
  have k04 : ∀ y, lch "using Xunit;" ∈ splitNl y →
      lch "using Xunit;" ∈ splitNl (resub
        (seqs [rlit "public async Task ", RE.group 1 plusWord, rlit "()"])
        [tl "public async Task ", TI.ref 1, tl "()"] y) :=
    fun y hy => resubF_line_keeps
      (r := TRule.r1 (lch "public async Task ") CC.word (lch "()"))
      hw hnl (by decide) (blockEmit_tmpl_r1 (by decide)) hy
  have k05 : ∀ y, lch "using Xunit;" ∈ splitNl y →
      lch "using Xunit;" ∈ splitNl (resub
        (seqs [rlit "await Assert.That(", RE.group 1 (plusNot ")"), rlit ").IsEqualTo(",
          RE.group 2 (plusNot ")"), rlit ");"])
        [tl "Assert.Equal(", TI.ref 2, tl ", ", TI.ref 1, tl ");"] y) :=
    fun y hy => resubF_line_keeps
      (r := TRule.r2 (lch "await Assert.That(") (CC.noneOf (lch ")"))
        (lch ").IsEqualTo(") (CC.noneOf (lch ")")) (lch ");"))
      hw hnl (by decide) (blockEmit_tmpl_r2 (by decide) (by decide)) hy
  have k06 : ∀ y, lch "using Xunit;" ∈ splitNl y →
      lch "using Xunit;" ∈ splitNl (resub
        (seqs [rlit "await Assert.That(", RE.group 1 (plusNot ")"), rlit ").IsNotEqualTo(",
          RE.group 2 (plusNot ")"), rlit ");"])
        [tl "Assert.NotEqual(", TI.ref 2, tl ", ", TI.ref 1, tl ");"] y) :=
    fun y hy => resubF_line_keeps
      (r := TRule.r2 (lch "await Assert.That(") (CC.noneOf (lch ")"))
        (lch ").IsNotEqualTo(") (CC.noneOf (lch ")")) (lch ");"))
      hw hnl (by decide) (blockEmit_tmpl_r2 (by decide) (by decide)) hy
  have k07 : ∀ y, lch "using Xunit;" ∈ splitNl y →
      lch "using Xunit;" ∈ splitNl (resub
        (seqs [rlit "await Assert.That(", RE.group 1 (plusNot ")"), rlit ").IsNotNull();"])
        [tl "Assert.NotNull(", TI.ref 1, tl ");"] y) :=
    fun y hy => resubF_line_keeps
      (r := TRule.r1 (lch "await Assert.That(") (CC.noneOf (lch ")")) (lch ").IsNotNull();"))
      hw hnl (by decide) (blockEmit_tmpl_r1 (by decide)) hy
  have k08 : ∀ y, lch "using Xunit;" ∈ splitNl y →
      lch "using Xunit;" ∈ splitNl (resub
        (seqs [rlit "await Assert.That(", RE.group 1 (plusNot ")"), rlit ").IsNull();"])
        [tl "Assert.Null(", TI.ref 1, tl ");"] y) :=
    fun y hy => resubF_line_keeps
      (r := TRule.r1 (lch "await Assert.That(") (CC.noneOf (lch ")")) (lch ").IsNull();"))
      hw hnl (by decide) (blockEmit_tmpl_r1 (by decide)) hy
  have k09 : ∀ y, lch "using Xunit;" ∈ splitNl y →
      lch "using Xunit;" ∈ splitNl (resub
        (seqs [rlit "await Assert.That(", RE.group 1 (plusNot ")"), rlit ").IsTrue();"])
        [tl "Assert.True(", TI.ref 1, tl ");"] y) :=
    fun y hy => resubF_line_keeps
      (r := TRule.r1 (lch "await Assert.That(") (CC.noneOf (lch ")")) (lch ").IsTrue();"))
      hw hnl (by decide) (blockEmit_tmpl_r1 (by decide)) hy
  have k10 : ∀ y, lch "using Xunit;" ∈ splitNl y →
      lch "using Xunit;" ∈ splitNl (resub
        (seqs [rlit "await Assert.That(", RE.group 1 (plusNot ")"), rlit ").IsFalse();"])
        [tl "Assert.False(", TI.ref 1, tl ");"] y) :=
    fun y hy => resubF_line_keeps
      (r := TRule.r1 (lch "await Assert.That(") (CC.noneOf (lch ")")) (lch ").IsFalse();"))
      hw hnl (by decide) (blockEmit_tmpl_r1 (by decide)) hy
  have k11 : ∀ y, lch "using Xunit;" ∈ splitNl y →
      lch "using Xunit;" ∈ splitNl (resub
        (seqs [rlit "await Assert.That(", RE.group 1 (plusNot ")"), rlit ").IsGreaterThan(",
          RE.group 2 (plusNot ")"), rlit ");"])
        [tl "Assert.True(", TI.ref 1, tl " > ", TI.ref 2, tl ");"] y) :=
    fun y hy => resubF_line_keeps
      (r := TRule.r2 (lch "await Assert.That(") (CC.noneOf (lch ")"))
        (lch ").IsGreaterThan(") (CC.noneOf (lch ")")) (lch ");"))
      hw hnl (by decide) (blockEmit_tmpl_r2 (by decide) (by decide)) hy
  have k12 : ∀ y, lch "using Xunit;" ∈ splitNl y →
      lch "using Xunit;" ∈ splitNl (resub
        (seqs [rlit "await Assert.That(", RE.group 1 (plusNot ")"),
          rlit ").IsGreaterThanOrEqualTo(", RE.group 2 (plusNot ")"), rlit ");"])
        [tl "Assert.True(", TI.ref 1, tl " >= ", TI.ref 2, tl ");"] y) :=
    fun y hy => resubF_line_keeps
      (r := TRule.r2 (lch "await Assert.That(") (CC.noneOf (lch ")"))
        (lch ").IsGreaterThanOrEqualTo(") (CC.noneOf (lch ")")) (lch ");"))
      hw hnl (by decide) (blockEmit_tmpl_r2 (by decide) (by decide)) hy
  have k13 : ∀ y, lch "using Xunit;" ∈ splitNl y →
      lch "using Xunit;" ∈ splitNl (resub
        (seqs [rlit "await Assert.That(", RE.group 1 (plusNot ")"), rlit ").IsLessThan(",
          RE.group 2 (plusNot ")"), rlit ");"])
        [tl "Assert.True(", TI.ref 1, tl " < ", TI.ref 2, tl ");"] y) :=
    fun y hy => resubF_line_keeps
      (r := TRule.r2 (lch "await Assert.That(") (CC.noneOf (lch ")"))
        (lch ").IsLessThan(") (CC.noneOf (lch ")")) (lch ");"))
      hw hnl (by decide) (blockEmit_tmpl_r2 (by decide) (by decide)) hy
  have k14 : ∀ y, lch "using Xunit;" ∈ splitNl y →
      lch "using Xunit;" ∈ splitNl (resub
        (seqs [rlit "await Assert.That(", RE.group 1 (plusNot ")"),
          rlit ").IsLessThanOrEqualTo(", RE.group 2 (plusNot ")"), rlit ");"])
        [tl "Assert.True(", TI.ref 1, tl " <= ", TI.ref 2, tl ");"] y) :=
    fun y hy => resubF_line_keeps
      (r := TRule.r2 (lch "await Assert.That(") (CC.noneOf (lch ")"))
        (lch ").IsLessThanOrEqualTo(") (CC.noneOf (lch ")")) (lch ");"))
      hw hnl (by decide) (blockEmit_tmpl_r2 (by decide) (by decide)) hy
  have k15 : ∀ y, lch "using Xunit;" ∈ splitNl y →
      lch "using Xunit;" ∈ splitNl (resub
        (seqs [rlit "await Assert.That(", RE.group 1 (plusNot ")"), rlit ").Contains(",
          RE.group 2 (plusNot ")"), rlit ");"])
        [tl "Assert.Contains(", TI.ref 2, tl ", ", TI.ref 1, tl ");"] y) :=
    fun y hy => resubF_line_keeps
      (r := TRule.r2 (lch "await Assert.That(") (CC.noneOf (lch ")"))
        (lch ").Contains(") (CC.noneOf (lch ")")) (lch ");"))
      hw hnl (by decide) (blockEmit_tmpl_r2 (by decide) (by decide)) hy
  have k16 : ∀ y, lch "using Xunit;" ∈ splitNl y →
      lch "using Xunit;" ∈ splitNl (resub
        (seqs [rlit "await Assert.That(", RE.group 1 (plusNot ")"), rlit ").DoesNotContain(",
          RE.group 2 (plusNot ")"), rlit ");"])
        [tl "Assert.DoesNotContain(", TI.ref 2, tl ", ", TI.ref 1, tl ");"] y) :=
    fun y hy => resubF_line_keeps
      (r := TRule.r2 (lch "await Assert.That(") (CC.noneOf (lch ")"))
        (lch ").DoesNotContain(") (CC.noneOf (lch ")")) (lch ");"))
      hw hnl (by decide) (blockEmit_tmpl_r2 (by decide) (by decide)) hy
  have k17 : ∀ y, lch "using Xunit;" ∈ splitNl y →
      lch "using Xunit;" ∈ splitNl (resub
        (seqs [rlit "await Assert.That(", RE.group 1 (plusNot ")"), rlit ").IsEmpty();"])
        [tl "Assert.Empty(", TI.ref 1, tl ");"] y) :=
    fun y hy => resubF_line_keeps
      (r := TRule.r1 (lch "await Assert.That(") (CC.noneOf (lch ")")) (lch ").IsEmpty();"))
      hw hnl (by decide) (blockEmit_tmpl_r1 (by decide)) hy
  have k18 : ∀ y, lch "using Xunit;" ∈ splitNl y →
      lch "using Xunit;" ∈ splitNl (resub
        (seqs [rlit "await Assert.That(", RE.group 1 (plusNot ")"), rlit ").IsNotEmpty();"])
        [tl "Assert.NotEmpty(", TI.ref 1, tl ");"] y) :=
    fun y hy => resubF_line_keeps
      (r := TRule.r1 (lch "await Assert.That(") (CC.noneOf (lch ")")) (lch ").IsNotEmpty();"))
      hw hnl (by decide) (blockEmit_tmpl_r1 (by decide)) hy
  have k19 : ∀ y, lch "using Xunit;" ∈ splitNl y →
      lch "using Xunit;" ∈ splitNl (resub
        (seqs [rlit "await Assert.That(", RE.group 1 (plusNot ")"), rlit ").HasCount(",
          RE.group 2 (plusNot ")"), rlit ");"])
        [tl "Assert.Equal(", TI.ref 2, tl ", ", TI.ref 1, tl ".Count);"] y) :=
    fun y hy => resubF_line_keeps
      (r := TRule.r2 (lch "await Assert.That(") (CC.noneOf (lch ")"))
        (lch ").HasCount(") (CC.noneOf (lch ")")) (lch ");"))
      hw hnl (by decide) (blockEmit_tmpl_r2 (by decide) (by decide)) hy
  have k20 : ∀ y, lch "using Xunit;" ∈ splitNl y →
      lch "using Xunit;" ∈ splitNl (resub
        (seqs [rlit "Assert.Equal(0, ", RE.group 1 (plusNot ")"), rlit ".Count);"])
        [tl "Assert.Empty(", TI.ref 1, tl ");"] y) :=
    fun y hy => resubF_line_keeps
      (r := TRule.r1 (lch "Assert.Equal(0, ") (CC.noneOf (lch ")")) (lch ".Count);"))
      hw hnl (by decide) (blockEmit_tmpl_r1 (by decide)) hy
  have k21 : ∀ y, lch "using Xunit;" ∈ splitNl y →
      lch "using Xunit;" ∈ splitNl (resub
        (seqs [rlit "Assert.Equal(1, ", RE.group 1 (plusNot ")"), rlit ".Count);"])
        [tl "Assert.Single(", TI.ref 1, tl ");"] y) :=
    fun y hy => resubF_line_keeps
      (r := TRule.r1 (lch "Assert.Equal(1, ") (CC.noneOf (lch ")")) (lch ".Count);"))
      hw hnl (by decide) (blockEmit_tmpl_r1 (by decide)) hy
  have k22 : ∀ y, lch "using Xunit;" ∈ splitNl y →
      lch "using Xunit;" ∈ splitNl (resub
        (seqs [rlit "await Assert.That(", RE.group 1 (plusNot ")"), rlit ").IsTypeOf<",
          RE.group 2 (plusNot ">"), rlit ">();"])
        [tl "Assert.IsType<", TI.ref 2, tl ">(", TI.ref 1, tl ");"] y) :=
    fun y hy => resubF_line_keeps
      (r := TRule.r2 (lch "await Assert.That(") (CC.noneOf (lch ")"))
        (lch ").IsTypeOf<") (CC.noneOf (lch ">")) (lch ">();"))
      hw hnl (by decide) (blockEmit_tmpl_r2 (by decide) (by decide)) hy
  have k23 : ∀ y, lch "using Xunit;" ∈ splitNl y →
      lch "using Xunit;" ∈ splitNl (resub
        (seqs [rlit "await Assert.That(", RE.group 1 (plusNot ")"),
          rlit ").IsAssignableFrom<", RE.group 2 (plusNot ">"), rlit ">();"])
        [tl "Assert.IsAssignableFrom<", TI.ref 2, tl ">(", TI.ref 1, tl ");"] y) :=
    fun y hy => resubF_line_keeps
      (r := TRule.r2 (lch "await Assert.That(") (CC.noneOf (lch ")"))
        (lch ").IsAssignableFrom<") (CC.noneOf (lch ">")) (lch ">();"))
      hw hnl (by decide) (blockEmit_tmpl_r2 (by decide) (by decide)) hy
  have k24 : ∀ y, lch "using Xunit;" ∈ splitNl y →
      lch "using Xunit;" ∈ splitNl (resubF
        (seqs [rlit "await Assert.That(", plusNot ";", rlit ");"])
        (fun m _ => multiRepl m) y) :=
    fun y hy => resubF_line_keeps
      (r := TRule.rP (lch "await Assert.That(") (CC.noneOf (lch ";")) (lch ");"))
      hw hnl (by decide) (fun _ _ => trivial) hy
  exact step6_keeps_line (k24 _ (k23 _ (k22 _ (k21 _ (k20 _ (k19 _ (k18 _ (k17 _ (k16 _
    (k15 _ (k14 _ (k13 _ (k12 _ (k11 _ (k10 _ (k09 _ (k08 _ (k07 _ (k06 _ (k05 _ (k04 _
    (k03 _ (k02 _ (k01 _ h))))))))))))))))))))))))

/-- The line `using Xunit;` survives the whole conversion pipeline from the
insertion step to the written output (rules, async removal, and the
duplicate-`using` removal, which keeps the line's first occurrence). -/
theorem convertTransform_keeps_line {c0 : List Char}
    (h : lch "using Xunit;" ∈ splitNl (ensureXunitUsing (convertRemovals c0))) :
    lch "using Xunit;" ∈ splitNl (convertTransform c0) := by
  have h1 : lch "using Xunit;" ∈ splitNl (convertPreDedup c0) :=
    convertRules_keeps_line _ h
  show lch "using Xunit;" ∈ splitNl (joinNl (dedupUsings (splitNl (convertPreDedup c0))))
  rw [splitNl_joinNl (dedupUsings_ne_nil (splitNl_ne_nil _))
    (fun l hl => mem_splitNl_no_nl (mem_dedupGo _ _ l hl))]
  exact mem_dedupUsings h1

theorem goodUsing_not_ns {l : List Char} (h : goodUsing l = true) : nsLine l = false := by
  have h1 : startsW l (lch "using ") = true := by
    by_contra hne
    have hf : startsW l (lch "using ") = false := eq_false_of_ne_true hne
    unfold goodUsing at h
    rw [hf] at h
    simp at h
  cases l with
  | nil => exact absurd h1 (by decide)
  | cons c t =>
    have hc : c = 'u' := by
      simp only [startsW, lch, List.isPrefixOf, Bool.and_eq_true, beq_iff_eq] at h1
      exact h1.1.symm
    subst hc
    simp [nsLine, startsW, lch, List.isPrefixOf]

theorem insertIdx_spec : ∀ (ls : List (List Char)) (i acc : Nat),
    insertIdx ls i acc = if specIdx ls > 0 then i + specIdx ls else acc := by
  intro ls
  induction ls with
  | nil => intro i acc; simp [insertIdx, specIdx]
  | cons l rest ih =>
    intro i acc
    by_cases hg : goodUsing l = true
    · have hns : nsLine l = false := goodUsing_not_ns hg
      have hg' : (startsW l (lch "using ") && !startsW l (lch "using Xunit")) = true := hg
      have e0 : insertIdx (l :: rest) i acc = insertIdx rest (i + 1) (i + 1) := by
        simp only [insertIdx, hg', if_true]
      have e1 : specIdx (l :: rest) = if specIdx rest > 0 then specIdx rest + 1 else 1 := by
        simp only [specIdx]
        rw [if_neg (by simp [hns])]
        by_cases hr : specIdx rest > 0
        · rw [if_pos hr, if_pos hr]
        · rw [if_neg hr, if_neg hr, if_pos hg]
      rw [e0, ih, e1]
      split_ifs <;> omega
    · have hg' : (startsW l (lch "using ") && !startsW l (lch "using Xunit")) = false :=
        eq_false_of_ne_true hg
      by_cases hns : nsLine l = true
      · have hns' : startsW l (lch "namespace ") = true := hns
        have e0 : insertIdx (l :: rest) i acc = acc := by
          simp only [insertIdx, hg', Bool.false_eq_true, if_false, hns', if_true]
        have e1 : specIdx (l :: rest) = 0 := by
          simp only [specIdx]
          rw [if_pos hns]
        rw [e0, e1]
        simp
      · have hns' : startsW l (lch "namespace ") = false := eq_false_of_ne_true hns
        have e0 : insertIdx (l :: rest) i acc = insertIdx rest (i + 1) acc := by
          simp only [insertIdx, hg', Bool.false_eq_true, if_false, hns', if_false]
        have e1 : specIdx (l :: rest) = if specIdx rest > 0 then specIdx rest + 1 else 0 := by
          simp only [specIdx]
          rw [if_neg (by simp [nsLine, hns'])]
          by_cases hr : specIdx rest > 0
          · rw [if_pos hr, if_pos hr]
          · rw [if_neg hr, if_neg hr, if_neg hg]
        rw [e0, ih, e1]
        split_ifs <;> omega

theorem pyInsert_take_drop {α : Type} (x : α) :
    ∀ (ls : List α) (k : Nat), k ≤ ls.length →
    pyInsert k x ls = ls.take k ++ x :: ls.drop k := by
  intro ls
  induction ls with
  | nil =>
    intro k hk
    have : k = 0 := Nat.le_zero.mp hk
    subst this
    rfl
  | cons l ls ih =>
    intro k hk
    cases k with
    | zero => rfl
    | succ n =>
      simp only [pyInsert, List.take_succ_cons, List.drop_succ_cons, List.cons_append]
      rw [ih n (Nat.le_of_succ_le_succ hk)]

theorem specIdx_le : ∀ ls : List (List Char), specIdx ls ≤ ls.length := by
  intro ls
  induction ls with
  | nil => exact Nat.le_refl 0
  | cons l rest ih =>
    simp only [specIdx, List.length_cons]
    by_cases hns : nsLine l = true
    · rw [if_pos hns]; omega
    · rw [if_neg hns]
      by_cases hr : specIdx rest > 0
      · rw [if_pos hr]; omega
      · rw [if_neg hr]
        by_cases hg : goodUsing l = true
        · rw [if_pos hg]; omega
        · rw [if_neg hg]; omega

theorem specIdx_no_ns : ∀ (ls : List (List Char)), ∀ l ∈ ls.take (specIdx ls),
    nsLine l = false := by
  intro ls
  induction ls with
  | nil => intro l hl; simp at hl
  | cons x rest ih =>
    intro l hl
    by_cases hns : nsLine x = true
    · simp only [specIdx, if_pos hns, List.take_zero] at hl
      simp at hl
    · have hns' : nsLine x = false := eq_false_of_ne_true hns
      simp only [specIdx, if_neg hns] at hl
      by_cases hr : specIdx rest > 0
      · rw [if_pos hr] at hl
        rw [List.take_succ_cons] at hl
        rcases List.mem_cons.mp hl with h | h
        · exact h ▸ hns'
        · exact ih l h
      · rw [if_neg hr] at hl
        by_cases hg : goodUsing x = true
        · rw [if_pos hg] at hl
          simp only [List.take_succ_cons, List.take_zero] at hl
          rcases List.mem_cons.mp hl with h | h
          · exact h ▸ hns'
          · simp at h
        · rw [if_neg hg] at hl
          simp at hl

theorem specIdx_last_good : ∀ (ls : List (List Char)), specIdx ls > 0 →
    ∃ g, ls.get? (specIdx ls - 1) = some g ∧ goodUsing g = true := by
  intro ls
  induction ls with
  | nil => intro h; simp [specIdx] at h
  | cons x rest ih =>
    intro hpos
    by_cases hns : nsLine x = true
    · simp [specIdx, hns] at hpos
    · simp only [specIdx, if_neg hns] at hpos ⊢
      by_cases hr : specIdx rest > 0
      · rw [if_pos hr] at hpos ⊢
        obtain ⟨g, hg1, hg2⟩ := ih hr
        refine ⟨g, ?_, hg2⟩
        obtain ⟨k, hk⟩ : ∃ k, specIdx rest = k + 1 := ⟨specIdx rest - 1, by omega⟩
        rw [hk]
        simp only [Nat.add_sub_cancel, List.get?_cons_succ]
        rw [hk] at hg1
        simpa using hg1
      · rw [if_neg hr] at hpos ⊢
        by_cases hg : goodUsing x = true
        · rw [if_pos hg] at hpos ⊢
          exact ⟨x, rfl, hg⟩
        · rw [if_neg hg] at hpos
          simp at hpos

theorem specIdx_after : ∀ (ls : List (List Char)),
    ∀ l ∈ (ls.drop (specIdx ls)).takeWhile (fun l => !nsLine l), goodUsing l = false := by
  intro ls
  induction ls with
  | nil => intro l hl; simp at hl
  | cons x rest ih =>
    intro l hl
    by_cases hns : nsLine x = true
    · simp only [specIdx, if_pos hns, List.drop_zero, List.takeWhile, hns, Bool.not_true] at hl
      simp at hl
    · have hns' : nsLine x = false := eq_false_of_ne_true hns
      simp only [specIdx, if_neg hns] at hl
      by_cases hr : specIdx rest > 0
      · rw [if_pos hr, List.drop_succ_cons] at hl
        exact ih l hl
      · rw [if_neg hr] at hl
        have hr0 : specIdx rest = 0 := by omega
        by_cases hg : goodUsing x = true
        · rw [if_pos hg, List.drop_one, List.tail_cons] at hl
          have := ih l
          rw [hr0, List.drop_zero] at this
          exact this hl
        · rw [if_neg hg, List.drop_zero, List.takeWhile] at hl
          rw [hns'] at hl
          simp only [Bool.not_false] at hl
          rcases List.mem_cons.mp hl with h | h
          · exact h ▸ eq_false_of_ne_true hg
          · have := ih l
            rw [hr0, List.drop_zero] at this
            exact this h

/-- C10 counterexample: for the input
`using A;\nusing Xunit.Abstractions;\nnamespace N\n[Test]` the last using
line other than `using Xunit;` that precedes the `namespace ` line is
`using Xunit.Abstractions;` (output line 2), yet the conversion inserts
`using Xunit;` before it (output line 1), not immediately after it —
because the insertion loop skips every line starting with `using Xunit`,
including `using Xunit.Abstractions;`, when advancing the insertion index. -/
theorem c10_counterexample :
    convertTransform (lch "using A;\nusing Xunit.Abstractions;\nnamespace N\n[Test]")
      = lch "using A;\nusing Xunit;\nusing Xunit.Abstractions;\nnamespace N\n[Fact]" ∧
    (splitNl (convertTransform
        (lch "using A;\nusing Xunit.Abstractions;\nnamespace N\n[Test]"))).get? 1
      = some (lch "using Xunit;") ∧
    (splitNl (convertTransform
        (lch "using A;\nusing Xunit.Abstractions;\nnamespace N\n[Test]"))).get? 2
      = some (lch "using Xunit.Abstractions;") :=
  ⟨by decide, by decide, by decide⟩

/-- Insertion-step characterization (source lines 28-40): when the content
contains `[Test]` or `[Fact]` and does not contain `using Xunit;`, the line
`using Xunit;` is inserted at the specification index: every line before the
insertion point precedes the first `namespace ` line, the line immediately
before the insertion point (when one exists) is a using line not starting
with `using Xunit`, and no later such using line occurs before the first
`namespace ` line. -/
theorem xunit_insertion_step (c : List Char)
    (ht : (containsSub c (lch "[Test]") || containsSub c (lch "[Fact]")) = true)
    (hx : containsSub c (lch "using Xunit;") = false) :
    splitNl (ensureXunitUsing c)
      = (splitNl c).take (specIdx (splitNl c))
          ++ lch "using Xunit;" :: (splitNl c).drop (specIdx (splitNl c)) ∧
    lch "using Xunit;" ∈ splitNl (ensureXunitUsing c) ∧
    (∀ l ∈ (splitNl c).take (specIdx (splitNl c)), nsLine l = false) ∧
    (specIdx (splitNl c) > 0 →
      ∃ g, (splitNl c).get? (specIdx (splitNl c) - 1) = some g ∧ goodUsing g = true) ∧
    (∀ l ∈ ((splitNl c).drop (specIdx (splitNl c))).takeWhile (fun l => !nsLine l),
      goodUsing l = false) := by
  have hidx : insertIdx (splitNl c) 0 0 = specIdx (splitNl c) := by
    rw [insertIdx_spec]
    by_cases h : specIdx (splitNl c) > 0
    · rw [if_pos h, Nat.zero_add]
    · rw [if_neg h]
      omega
  have h1 : ensureXunitUsing c
      = joinNl (pyInsert (specIdx (splitNl c)) (lch "using Xunit;") (splitNl c)) := by
    unfold ensureXunitUsing
    rw [if_pos ht, if_pos (by simp [hx])]
    show joinNl (pyInsert (insertIdx (splitNl c) 0 0) (lch "using Xunit;") (splitNl c)) = _
    rw [hidx]
  have h2 : pyInsert (specIdx (splitNl c)) (lch "using Xunit;") (splitNl c)
      = (splitNl c).take (specIdx (splitNl c))
          ++ lch "using Xunit;" :: (splitNl c).drop (specIdx (splitNl c)) :=
    pyInsert_take_drop _ _ _ (specIdx_le _)
  have hnl : ∀ l ∈ (splitNl c).take (specIdx (splitNl c))
      ++ lch "using Xunit;" :: (splitNl c).drop (specIdx (splitNl c)), '\n' ∉ l := by
    intro l hl
    rcases List.mem_append.mp hl with h | h
    · exact mem_splitNl_no_nl (List.mem_of_mem_take h)
    · rcases List.mem_cons.mp h with h | h
      · subst h
        decide
      · exact mem_splitNl_no_nl (List.mem_of_mem_drop h)
  have hmain : splitNl (ensureXunitUsing c)
      = (splitNl c).take (specIdx (splitNl c))
          ++ lch "using Xunit;" :: (splitNl c).drop (specIdx (splitNl c)) := by
    rw [h1, h2, splitNl_joinNl (by simp) hnl]
  refine ⟨hmain, ?_, specIdx_no_ns _, specIdx_last_good _, specIdx_after _⟩
  rw [hmain]
  exact List.mem_append.mpr (Or.inr (List.mem_cons_self _ _))

/-- C10 (amended): for every input to the TUnit-to-xUnit conversion whose
content after removal of the TUnit using lines contains `[Test]` or
`[Fact]`: when `using Xunit;` does not occur in that content, the written
output contains the line `using Xunit;`, inserted immediately after the last
using line *not starting with `using Xunit`* that precedes the first
`namespace ` line (at the very top when there is none); when `using Xunit;`
already occurs as a whole line of the content, the written output also
contains that line.  When `using Xunit;` occurs only inside a longer line,
nothing is inserted and the written output need not contain the line (see
`xunit_line_lost_when_substring`). -/
theorem c10_xunit_insertion (c0 : List Char) :
    ((containsSub (convertRemovals c0) (lch "[Test]")
        || containsSub (convertRemovals c0) (lch "[Fact]")) = true →
      containsSub (convertRemovals c0) (lch "using Xunit;") = false →
      lch "using Xunit;" ∈ splitNl (convertTransform c0) ∧
      splitNl (ensureXunitUsing (convertRemovals c0))
        = (splitNl (convertRemovals c0)).take (specIdx (splitNl (convertRemovals c0)))
            ++ lch "using Xunit;"
              :: (splitNl (convertRemovals c0)).drop
                  (specIdx (splitNl (convertRemovals c0))) ∧
      (∀ l ∈ (splitNl (convertRemovals c0)).take (specIdx (splitNl (convertRemovals c0))),
        nsLine l = false) ∧
      (specIdx (splitNl (convertRemovals c0)) > 0 →
        ∃ g, (splitNl (convertRemovals c0)).get?
            (specIdx (splitNl (convertRemovals c0)) - 1) = some g ∧ goodUsing g = true) ∧
      (∀ l ∈ ((splitNl (convertRemovals c0)).drop
            (specIdx (splitNl (convertRemovals c0)))).takeWhile (fun l => !nsLine l),
        goodUsing l = false)) ∧
    (lch "using Xunit;" ∈ splitNl (convertRemovals c0) →
      lch "using Xunit;" ∈ splitNl (convertTransform c0)) := by
  constructor
  · intro ht hx
    obtain ⟨hins, hmem, hns, hlast, hafter⟩ :=
      xunit_insertion_step (convertRemovals c0) ht hx
    exact ⟨convertTransform_keeps_line hmem, hins, hns, hlast, hafter⟩
  · intro hline
    apply convertTransform_keeps_line
    rw [ensureXunitUsing_of_contains (containsSub_of_line hline)]
    exact hline

/-- C10 witness: on `using A;\n[Test]` the line `using Xunit;` is inserted at
index 1, immediately after the using line `using A;`, and appears in the
written output; on `using Xunit;\n[Test]`, where the line is already
present, the written output also contains it. -/
theorem c10_xunit_insertion_witness :
    lch "using Xunit;" ∈ splitNl (convertTransform (lch "using A;\n[Test]")) ∧
    splitNl (ensureXunitUsing (convertRemovals (lch "using A;\n[Test]")))
      = (splitNl (convertRemovals (lch "using A;\n[Test]"))).take
          (specIdx (splitNl (convertRemovals (lch "using A;\n[Test]"))))
        ++ lch "using Xunit;"
          :: (splitNl (convertRemovals (lch "using A;\n[Test]"))).drop
              (specIdx (splitNl (convertRemovals (lch "using A;\n[Test]")))) ∧
    lch "using Xunit;" ∈ splitNl (convertTransform (lch "using Xunit;\n[Test]")) :=
  ⟨((c10_xunit_insertion (lch "using A;\n[Test]")).1 (by decide) (by decide)).1,
   ((c10_xunit_insertion (lch "using A;\n[Test]")).1 (by decide) (by decide)).2.1,
   (c10_xunit_insertion (lch "using Xunit;\n[Test]")).2 (by decide)⟩

/-- When `using Xunit;` occurs only inside a longer line of the content, the
insertion is skipped (the check at source line 30 is a substring test) and
the written output can lack the line entirely: on this input the multi-line
`IsTrue` rewrite glues `);` directly after it.  This is the reason the
written-output guarantee above is restricted to the absent and whole-line
cases. -/
theorem xunit_line_lost_when_substring :
    containsSub (convertRemovals
        (lch "using A;\n[Test]\nawait Assert.That(x\nusing Xunit;).IsTrue();"))
      (lch "[Test]") = true ∧
    containsSub (convertRemovals
        (lch "using A;\n[Test]\nawait Assert.That(x\nusing Xunit;).IsTrue();"))
      (lch "using Xunit;") = true ∧
    convertTransform (lch "using A;\n[Test]\nawait Assert.That(x\nusing Xunit;).IsTrue();")
      = lch "using A;\n[Fact]\nAssert.True(x\nusing Xunit;);" ∧
    lch "using Xunit;" ∉ splitNl (convertTransform
      (lch "using A;\n[Test]\nawait Assert.That(x\nusing Xunit;).IsTrue();")) :=
  ⟨by decide, by decide, by decide, by decide⟩

/-! ## Lemmas about the async-removal pass -/

theorem charContains_iff {l : List Char} {c : Char} : l.contains c = true ↔ c ∈ l := by
  show l.elem c = true ↔ c ∈ l
  exact List.elem_iff

theorem count_int_zero {l : List Char} {c : Char} (h : l.contains c = false) :
    (l.count c : Int) = 0 := by
  have : c ∉ l := fun hm => by
    rw [charContains_iff.mpr hm] at h
    cases h
  simp [List.count_eq_zero.mpr this]

theorem condAdd_collapse (l : List Char) (cnt : Int) :
    (if l.contains '{' then cnt + (l.count '{' : Int) else cnt)
      = cnt + (l.count '{' : Int) := by
  by_cases h : l.contains '{' = true
  · rw [if_pos h]
  · rw [if_neg h, count_int_zero (eq_false_of_ne_true h), add_zero]

theorem condSub_collapse (l : List Char) (x : Int) :
    (if l.contains '}' then x - (l.count '}' : Int) else x)
      = x - (l.count '}' : Int) := by
  by_cases h : l.contains '}' = true
  · rw [if_pos h]
  · rw [if_neg h, count_int_zero (eq_false_of_ne_true h), sub_zero]

theorem scanEnd_spec : ∀ (ls : List (List Char)) (cnt : Int) (found : Bool),
    scanEnd ls cnt found = (List.range ls.length).find? (fun j =>
      (found || (ls.take (j + 1)).any (fun l => l.contains '{'))
        && (cnt + braceBal (ls.take (j + 1)) == 0)) := by
  intro ls
  induction ls with
  | nil => intro cnt found; rfl
  | cons l rest ih =>
    intro cnt found
    have hcnt2 : (if l.contains '}' then
        (if l.contains '{' then cnt + (l.count '{' : Int) else cnt) - (l.count '}' : Int)
        else (if l.contains '{' then cnt + (l.count '{' : Int) else cnt))
        = cnt + braceDelta l := by
      rw [condSub_collapse, condAdd_collapse, braceDelta, add_sub_assoc]
    have e0 : scanEnd (l :: rest) cnt found =
        if (found || l.contains '{') && (cnt + braceDelta l == 0) then some 0
        else (scanEnd rest (cnt + braceDelta l) (found || l.contains '{')).map
          (fun k => k + 1) := by
      simp only [scanEnd, hcnt2]
    rw [e0]
    have hP0 : ((found || ((l :: rest).take (0 + 1)).any (fun l => l.contains '{'))
        && (cnt + braceBal ((l :: rest).take (0 + 1)) == 0))
        = ((found || l.contains '{') && (cnt + braceDelta l == 0)) := by
      simp [braceBal]
    have hPsucc : ∀ j : Nat,
        ((found || ((l :: rest).take (j + 1 + 1)).any (fun l => l.contains '{'))
          && (cnt + braceBal ((l :: rest).take (j + 1 + 1)) == 0))
        = (((found || l.contains '{') || (rest.take (j + 1)).any (fun l => l.contains '{'))
          && ((cnt + braceDelta l) + braceBal (rest.take (j + 1)) == 0)) := by
      intro j
      have ht : (l :: rest).take (j + 1 + 1) = l :: rest.take (j + 1) := rfl
      rw [ht]
      have hbal : braceBal (l :: rest.take (j + 1)) = braceDelta l + braceBal (rest.take (j + 1)) := by
        simp [braceBal]
      rw [hbal]
      have : cnt + (braceDelta l + braceBal (rest.take (j + 1)))
          = (cnt + braceDelta l) + braceBal (rest.take (j + 1)) := by ring
      rw [this]
      simp [Bool.or_assoc]
    rw [List.length_cons, List.range_succ_eq_map]
    rw [List.find?_cons]
    rw [hP0]
    by_cases hc : ((found || l.contains '{') && (cnt + braceDelta l == 0)) = true
    · rw [if_pos hc, hc]
    · rw [if_neg hc, eq_false_of_ne_true hc]
      rw [List.find?_map]
      rw [ih]
      have hfn : ((fun j =>
          (found || ((l :: rest).take (j + 1)).any (fun l => l.contains '{'))
            && (cnt + braceBal ((l :: rest).take (j + 1)) == 0)) ∘ Nat.succ)
          = (fun j =>
            ((found || l.contains '{') || (rest.take (j + 1)).any (fun l => l.contains '{'))
              && ((cnt + braceDelta l) + braceBal (rest.take (j + 1)) == 0)) := by
        funext j
        exact hPsucc j
      rw [hfn]

theorem scanEnd_eq_specEnd (ls : List (List Char)) : scanEnd ls 0 false = specEnd ls := by
  rw [scanEnd_spec]
  unfold specEnd
  congr 1
  funext j
  simp

theorem get?_eq_head?_drop {α : Type} (L : List α) (i : Nat) :
    L.get? i = (L.drop i).head? := by
  rw [List.get?_eq_getElem?]
  exact (List.head?_drop L i).symm

theorem step6Go_drop : ∀ (L : List (List Char)) (i : Nat),
    (step6Go L).drop i = step6Go (L.drop i) := by
  intro L
  induction L with
  | nil => intro i; simp [step6Go]
  | cons l rest ih =>
    intro i
    cases i with
    | zero => rfl
    | succ j =>
      simp only [step6Go, List.drop_succ_cons]
      exact ih j

/-- C6: for a line of the form `public async Task <Name>()`, the pass of
source lines 108-133 determines the method extent as the least following
line index at which a `{` has been seen and the running brace balance
(opens minus closes, tracked across lines from the signature line) returns
to zero (`specEnd`), and rewrites the signature to `public void <Name>()`
exactly when `await ` does not occur in the extent's text.  The side
condition `hclean` states that the remainder of the signature line does not
itself contain the text `public async Task`, which holds for any method
name. -/
theorem c6_async_removal (L : List (List Char)) (i : Nat) (n : List Char)
    (suf : List (List Char)) (e : Nat)
    (hL : L.drop i = (lch "public async Task " ++ n ++ lch "()") :: suf)
    (hclean : containsSub (lch " " ++ n ++ lch "()") (lch "public async Task") = false)
    (hext : specEnd ((lch "public async Task " ++ n ++ lch "()") :: suf) = some e) :
    (step6Go L).get? i = some
      (if containsSub
          (joinNl (((lch "public async Task " ++ n ++ lch "()") :: suf).take (e + 1)))
          (lch "await ") = true
        then lch "public async Task " ++ n ++ lch "()"
        else lch "public void " ++ n ++ lch "()") := by
  have hsig : lch "public async Task " ++ n ++ lch "()"
      = lch "public async Task" ++ (lch " " ++ n ++ lch "()") := by
    rw [show lch "public async Task " = lch "public async Task" ++ lch " " from by decide]
    simp [List.append_assoc]
  have htrig1 : containsSub (lch "public async Task " ++ n ++ lch "()")
      (lch "public async Task") = true := by
    rw [hsig]
    exact containsSub_of_prefix ⟨lch " " ++ n ++ lch "()", rfl⟩
  have htrig2 : containsSub (lch "public async Task " ++ n ++ lch "()") (lch "()") = true := by
    refine containsSub_of_suffix ⟨lch "public async Task " ++ n, ?_⟩
    simp [List.append_assoc]
  have hmeth : methodContent ((lch "public async Task " ++ n ++ lch "()") :: suf)
      = joinNl (((lch "public async Task " ++ n ++ lch "()") :: suf).take (e + 1)) := by
    unfold methodContent
    rw [scanEnd_eq_specEnd, hext]
    rfl
  rw [get?_eq_head?_drop, step6Go_drop, hL]
  simp only [step6Go, List.head?_cons, htrig1, htrig2, hmeth, Bool.true_and]
  by_cases hA : containsSub
      (joinNl (((lch "public async Task " ++ n ++ lch "()") :: suf).take (e + 1)))
      (lch "await ") = true
  · rw [hA]
    simp [hA]
  · rw [eq_false_of_ne_true hA]
    simp only [Bool.not_false, Bool.and_true, if_true, if_neg hA]
    congr 1
    rw [hsig, strReplace_once _ (by decide) hclean]
    rw [show lch "public void " = lch "public void" ++ lch " " from by decide]
    simp [List.append_assoc]

/-- C6 witness: `public async Task Foo()` with a body whose braces balance on
the fourth line and with no `await ` in the extent is rewritten to
`public void Foo()`. -/
theorem c6_async_removal_witness :
    (step6Go [lch "public async Task " ++ lch "Foo" ++ lch "()", lch "\x7b",
        lch "  x();", lch "\x7d"]).get? 0
      = some (if containsSub
          (joinNl (((lch "public async Task " ++ lch "Foo" ++ lch "()")
            :: [lch "\x7b", lch "  x();", lch "\x7d"]).take (3 + 1)))
          (lch "await ") = true
        then lch "public async Task " ++ lch "Foo" ++ lch "()"
        else lch "public void " ++ lch "Foo" ++ lch "()") :=
  c6_async_removal
    [lch "public async Task " ++ lch "Foo" ++ lch "()", lch "\x7b", lch "  x();", lch "\x7d"]
    0 (lch "Foo") [lch "\x7b", lch "  x();", lch "\x7d"] 3
    (by decide) (by decide) (by decide)
